import Mathlib

/-
Verification of the structured-extraction pipeline of the linkedin-backend
repository (backend/extractor.py, backend/normalizer.py, backend/nlp.py).

The Python code is shallowly embedded over `Str := List Char`.  The three
external collaborators are modelled as oracle parameters:
  * `dp`   : the date-parsing oracle (`dateparser.parse`), returning the
             (year, month) of the parsed datetime, or `none`;
  * `ents` : the entity-extraction oracle (the spaCy pipeline), returning
             labelled spans `(text, label)`;
  * `sim`  : the fuzzy-similarity oracle (`rapidfuzz.process.extractOne`),
             returning the best `(match, score)` of a query against a
             vocabulary, or `none`.
Python regular expressions are embedded through a small backtracking engine
(`reCore`) whose alternatives are tried in Python's priority order
(leftmost match, lazy/greedy quantifier order, first alternative first),
so the captures it produces are the ones `re` produces.  Python exceptions
are modelled by `Option` (`none` = the call raises).  Character classes are
modelled over the ASCII/common-whitespace range.
-/

namespace LinkedinExtraction

abbrev Str := List Char

/-! ### Character predicates and basic string helpers -/

/-- Python whitespace (`str.strip`, regex `\s`), restricted to the ASCII and
common unicode whitespace actually relevant here. -/
def pyIsSpace (c : Char) : Bool :=
  c = ' ' || c = '\t' || c = '\n' || c = '\r' || c = '\x0b' || c = '\x0c' ||
  c = '\x1c' || c = '\x1d' || c = '\x1e' || c = '\x85' || c = '\xa0' ||
  c = ' ' || c = ' '

/-- Line terminators recognised by Python `str.splitlines` (besides `\r\n`). -/
def isLineTerm (c : Char) : Bool :=
  c = '\n' || c = '\r' || c = '\x0b' || c = '\x0c' ||
  c = '\x1c' || c = '\x1d' || c = '\x1e' || c = '\x85' ||
  c = ' ' || c = ' '

/-- ASCII lower-casing, as applied by Python `str.lower` on the ASCII range. -/
def asciiLower (c : Char) : Char :=
  if 65 ≤ c.toNat ∧ c.toNat ≤ 90 then Char.ofNat (c.toNat + 32) else c

def lowerStr (s : Str) : Str := s.map asciiLower

def isDigitC (c : Char) : Bool := 48 ≤ c.toNat && c.toNat ≤ 57

def isAlphaC (c : Char) : Bool :=
  (65 ≤ c.toNat && c.toNat ≤ 90) || (97 ≤ c.toNat && c.toNat ≤ 122)

/-- Regex `\w` over the ASCII range. -/
def isWordC (c : Char) : Bool := isAlphaC c || isDigitC c || c = '_'

/-- Python `str.lstrip()`. -/
def lstrip (s : Str) : Str := s.dropWhile pyIsSpace

/-- Python `str.rstrip()`. -/
def rstrip (s : Str) : Str := (s.reverse.dropWhile pyIsSpace).reverse

/-- Python `str.strip()`. -/
def stripStr (s : Str) : Str := rstrip (lstrip s)

/-- Python `" ".join(parts)`. -/
def joinSpace (parts : List Str) : Str :=
  match parts with
  | [] => []
  | p :: rest => p ++ (rest.map (fun q => ' ' :: q)).flatten

/-- Python `str.splitlines`, accumulator-based: `cur` holds the current line
reversed; `\r\n` counts as a single terminator.  The fuel only needs to
cover the length of the remaining string, since every round consumes at
least one character. -/
def splitlinesGo : Nat → Str → Str → List Str
  | _, cur, [] => if cur = [] then [] else [cur.reverse]
  | 0, _, _ :: _ => []
  | fuel + 1, cur, c :: t =>
      if c = '\r' ∧ t.head? = some '\n' then
        cur.reverse :: splitlinesGo fuel [] t.tail
      else if isLineTerm c then cur.reverse :: splitlinesGo fuel [] t
      else splitlinesGo fuel (c :: cur) t

def splitlinesPy (s : Str) : List Str := splitlinesGo s.length [] s

/-- Python `str.split()` (split on whitespace runs, dropping empty pieces).
Each round consumes at least the non-whitespace head of the remaining
string, so `s.length + 1` rounds always finish the split. -/
def splitWSGo : Nat → Str → List Str
  | 0, _ => []
  | fuel + 1, s =>
      match s.dropWhile pyIsSpace with
      | [] => []
      | c :: t =>
          ((c :: t).takeWhile (fun d => !pyIsSpace d)) ::
            splitWSGo fuel ((c :: t).dropWhile (fun d => !pyIsSpace d))

def splitWS (s : Str) : List Str := splitWSGo (s.length + 1) s

/-- Case-insensitive substring test (`re.search` of a literal with `re.I`). -/
def substrCI (needle s : Str) : Bool :=
  (List.range (s.length + 1)).any
    (fun i => lowerStr ((s.drop i).take needle.length) = lowerStr needle)

/-- Case-sensitive substring test (Python `needle in hay`). -/
def substrP (needle s : Str) : Bool :=
  (List.range (s.length + 1)).any
    (fun i => (s.drop i).take needle.length = needle)

/-! ### Decimal formatting (Python `f"{n:04d}"` / `f"{n:02d}"` for `n : Nat`) -/

def digitChar (n : Nat) : Char := Char.ofNat (48 + n)

def decDigitsAux : Nat → Nat → Str
  | 0, _ => []
  | fuel + 1, n =>
      if n < 10 then [digitChar n]
      else decDigitsAux fuel (n / 10) ++ [digitChar (n % 10)]

/-- Decimal representation of a natural number, most significant digit first. -/
def decDigits (n : Nat) : Str := decDigitsAux (n + 1) n

/-- Python `f"{n:0wd}"` for a nonnegative `n`: left-pad the decimal form with
zeros to width `w`. -/
def padZ (w : Nat) (n : Nat) : Str :=
  List.replicate (w - (decDigits n).length) '0' ++ decDigits n

def fmtYM (y m : Nat) : Str := padZ 4 y ++ '-' :: padZ 2 m

/-- Value of a string of decimal digits (Python `int`, on all-digit input). -/
def natOfDigits (s : Str) : Nat := s.foldl (fun a c => 10 * a + (c.toNat - 48)) 0

/-! ### A small backtracking regex engine

Every quantifier occurring in the embedded patterns ranges over a single
character class, so repetition is handled without recursion through the
pattern.  `reCore` explores alternatives in exactly Python's order: a lazy
quantifier tries the shortest repetition first, a greedy one the longest,
alternatives left to right; the continuation-passing style together with
`Option.orElse` makes the first success in that order the overall result,
which is the match (and the captures) Python's `re` reports. -/

/-- Regex abstract syntax.  `rep p lo hi lzy` is `p{lo,hi}` (`hi = none`
meaning unbounded) with `lzy = true` for a lazy quantifier; `grp i r`
captures the text matched by `r` under index `i`; `eos` is `$` (end of
input, or just before a final newline). -/
inductive RE where
  | cls (p : Char → Bool)
  | lit (cs : Str)
  | litCI (cs : Str)
  | seq (a b : RE)
  | alt (a b : RE)
  | rep (p : Char → Bool) (lo : Nat) (hi : Option Nat) (lzy : Bool)
  | grp (i : Nat) (r : RE)
  | opt (r : RE)
  | eos

/-- Capture environment: most recent binding first. -/
abbrev Caps := List (Nat × Str)

def capFind : Caps → Nat → Option Str
  | [], _ => none
  | (j, v) :: t, i => if j = i then some v else capFind t i

/-- Python `m.group(i) or ""`. -/
def capGet (caps : Caps) (i : Nat) : Str := (capFind caps i).getD []

def firstSome (f : α → Option β) : List α → Option β
  | [] => none
  | a :: as => (f a).orElse fun _ => firstSome f as

/-- Repetition counts to try, in Python's preference order. -/
def repKs (lo : Nat) (hi : Option Nat) (lzy : Bool) (run : Nat) : List Nat :=
  let h := min (hi.getD run) run
  if h < lo then []
  else if lzy then List.range' lo (h - lo + 1) else (List.range' lo (h - lo + 1)).reverse

/-- Match a case-sensitive literal, returning the remainder. -/
def litMatch : Str → Str → Option Str
  | [], s => some s
  | _, [] => none
  | c :: cs, d :: s => if d = c then litMatch cs s else none

/-- Match a case-insensitive literal, returning the remainder. -/
def litMatchCI : Str → Str → Option Str
  | [], s => some s
  | _, [] => none
  | c :: cs, d :: s => if asciiLower d = asciiLower c then litMatchCI cs s else none

def reCore : RE → Caps → Str → (Caps → Str → Option (Caps × Str)) → Option (Caps × Str)
  | .cls p, caps, s, k =>
      match s with
      | [] => none
      | c :: t => if p c then k caps t else none
  | .lit cs, caps, s, k =>
      match litMatch cs s with
      | some t => k caps t
      | none => none
  | .litCI cs, caps, s, k =>
      match litMatchCI cs s with
      | some t => k caps t
      | none => none
  | .seq a b, caps, s, k => reCore a caps s (fun c1 r1 => reCore b c1 r1 k)
  | .alt a b, caps, s, k => (reCore a caps s k).orElse fun _ => reCore b caps s k
  | .rep p lo hi lzy, caps, s, k =>
      firstSome (fun n => k caps (s.drop n)) (repKs lo hi lzy (s.takeWhile p).length)
  | .grp i r, caps, s, k =>
      reCore r caps s (fun c1 r1 => k ((i, s.take (s.length - r1.length)) :: c1) r1)
  | .opt r, caps, s, k => (reCore r caps s k).orElse fun _ => k caps s
  | .eos, caps, s, k => if s = [] ∨ s = ['\n'] then k caps s else none

/-- Anchored match at the start of `s` (Python `pat.match`): captures and
remainder of the leftmost-preferred match. -/
def reMatch (r : RE) (s : Str) : Option (Caps × Str) :=
  reCore r [] s (fun c rem => some (c, rem))

/-- Python `pat.search`: try each start position left to right; returns the
start index, captures and remainder after the match. -/
def reSearchAux (r : RE) : Str → Nat → Option (Nat × Caps × Str)
  | s, i =>
      match reMatch r s with
      | some (c, rem) => some (i, c, rem)
      | none =>
          match s with
          | [] => none
          | _ :: t => reSearchAux r t (i + 1)

def reSearch (r : RE) (s : Str) : Option (Nat × Caps × Str) := reSearchAux r s 0

/-- Python `re.split` (no capture groups in the pattern, `maxsplit = 0`).
The fuel is an upper bound on the number of splits; every separator match
here consumes at least one character, so `s.length + 1` suffices. -/
def reSplitAux (r : RE) : Nat → Str → List Str
  | 0, s => [s]
  | fuel + 1, s =>
      match reSearch r s with
      | none => [s]
      | some (i, _, rem) =>
          if (s.length - i) - rem.length = 0 then [s]
          else s.take i :: reSplitAux r fuel rem

def reSplit (r : RE) (s : Str) : List Str := reSplitAux r (s.length + 1) s

/-- Python `re.split(pat, s, maxsplit := 1)`, as the part before the first
separator and, when a separator occurs, the part after it. -/
def searchSplit1 (r : RE) (s : Str) : Str × Option Str :=
  match reSearch r s with
  | none => (s, none)
  | some (i, _, rem) => (s.take i, some rem)

/-- Helper: sequence a list of regexes. -/
def cat (l : List RE) : RE := l.foldr RE.seq (RE.lit [])

/-! ### The concrete patterns of `extractor.py` and `nlp.py` -/

/-- Regex `.` (any character but a newline). -/
def dotP (c : Char) : Bool := c ≠ '\n'

/-- Character class `[-–]` of `DATE_SEP` and the education line/year patterns
(hyphen or en dash). -/
def dashP (c : Char) : Bool := c = '-' || c = '–'

/-- Character class `[—-]` of experience pattern B (em dash or hyphen). -/
def emDashP (c : Char) : Bool := c = '—' || c = '-'

def nonParenP (c : Char) : Bool := c ≠ ')'

def nonParensP (c : Char) : Bool := c ≠ '(' && c ≠ ')'

/-- Class `[–·\-]` of `LOCATION_TAIL` (en dash, middle dot, hyphen). -/
def locSepP (c : Char) : Bool := c = '–' || c = '·' || c = '-'

/-- Class `[^|·–\-]` of `LOCATION_TAIL`. -/
def locBodyP (c : Char) : Bool := !(c = '|' || c = '·' || c = '–' || c = '-')

/-- Class `[\w\s/.]` of `DATE_RANGE_RE` in `nlp.py`. -/
def wsdP (c : Char) : Bool := isWordC c || pyIsSpace c || c = '/' || c = '.'

/-- Class `[,\n;]` of the skills split. -/
def skillSepP (c : Char) : Bool := c = ',' || c = '\n' || c = ';'

/-- `EXPERIENCE_LINE_PATTERNS[0]`:
`^(?P<title>.+?)\s+at\s+(?P<company>.+?)\s*\((?P<dates>[^)]+)\)\s*(?P<rest>.*)$`
(with `re.I`); groups: 1 = title, 2 = company, 3 = dates, 4 = rest. -/
def patternA : RE := cat
  [ RE.grp 1 (RE.rep dotP 1 none true), RE.rep pyIsSpace 1 none false,
    RE.litCI ("at".data), RE.rep pyIsSpace 1 none false,
    RE.grp 2 (RE.rep dotP 1 none true), RE.rep pyIsSpace 0 none false,
    RE.lit (['(']), RE.grp 3 (RE.rep nonParenP 1 none false), RE.lit ([')']),
    RE.rep pyIsSpace 0 none false, RE.grp 4 (RE.rep dotP 0 none false), RE.eos ]

/-- `EXPERIENCE_LINE_PATTERNS[1]`:
`^(?P<company>.+?)\s+[—-]\s+(?P<title>.+?)\s*\((?P<dates>[^)]+)\)\s*(?P<rest>.*)$`. -/
def patternB : RE := cat
  [ RE.grp 2 (RE.rep dotP 1 none true), RE.rep pyIsSpace 1 none false,
    RE.cls emDashP, RE.rep pyIsSpace 1 none false,
    RE.grp 1 (RE.rep dotP 1 none true), RE.rep pyIsSpace 0 none false,
    RE.lit (['(']), RE.grp 3 (RE.rep nonParenP 1 none false), RE.lit ([')']),
    RE.rep pyIsSpace 0 none false, RE.grp 4 (RE.rep dotP 0 none false), RE.eos ]

/-- `EXPERIENCE_LINE_PATTERNS[2]`:
`^(?P<title>.+?),\s+(?P<company>.+?)\s*\((?P<dates>[^)]+)\)\s*(?P<rest>.*)$`. -/
def patternC : RE := cat
  [ RE.grp 1 (RE.rep dotP 1 none true), RE.lit ([',']), RE.rep pyIsSpace 1 none false,
    RE.grp 2 (RE.rep dotP 1 none true), RE.rep pyIsSpace 0 none false,
    RE.lit (['(']), RE.grp 3 (RE.rep nonParenP 1 none false), RE.lit ([')']),
    RE.rep pyIsSpace 0 none false, RE.grp 4 (RE.rep dotP 0 none false), RE.eos ]

/-- `LOCATION_TAIL = (?:\s*[–·\-]\s*|\s+\|\s+)(?P<loc>[^|·–\-]+)$`;
group 5 = loc. -/
def locTailRE : RE := cat
  [ RE.alt
      (cat [RE.rep pyIsSpace 0 none false, RE.cls locSepP, RE.rep pyIsSpace 0 none false])
      (cat [RE.rep pyIsSpace 1 none false, RE.lit (['|']), RE.rep pyIsSpace 1 none false]),
    RE.grp 5 (RE.rep locBodyP 1 none false), RE.eos ]

/-- `SECTION_REGEX = (Experience|Education|Skills)` with `re.IGNORECASE`. -/
def sectionRE : RE :=
  RE.alt (RE.litCI ("experience".data))
    (RE.alt (RE.litCI ("education".data)) (RE.litCI ("skills".data)))

/-- Education line pattern
`^(?P<school>.+?)\s+[–-]\s+(?P<degree>.+?)(?:,\s*(?P<field>[^()]+))?\s*(?:\((?P<years>[^)]+)\))?$`;
groups: 1 = school, 2 = degree, 3 = field, 4 = years. -/
def eduRE : RE := cat
  [ RE.grp 1 (RE.rep dotP 1 none true), RE.rep pyIsSpace 1 none false,
    RE.cls dashP, RE.rep pyIsSpace 1 none false,
    RE.grp 2 (RE.rep dotP 1 none true),
    RE.opt (cat [RE.lit ([',']), RE.rep pyIsSpace 0 none false,
                 RE.grp 3 (RE.rep nonParensP 1 none false)]),
    RE.rep pyIsSpace 0 none false,
    RE.opt (cat [RE.lit (['(']), RE.grp 4 (RE.rep nonParenP 1 none false), RE.lit ([')'])]),
    RE.eos ]

/-- Years pattern `(?P<start>\d{4})\s*[–-]\s*(?P<end>\d{4}|present)` with
`re.I`; groups: 6 = start, 7 = end. -/
def ymRE : RE := cat
  [ RE.grp 6 (RE.rep isDigitC 4 (some 4) false), RE.rep pyIsSpace 0 none false,
    RE.cls dashP, RE.rep pyIsSpace 0 none false,
    RE.grp 7 (RE.alt (RE.rep isDigitC 4 (some 4) false) (RE.litCI ("present".data))) ]

/-- `DATE_SEP = \s*[-–]\s*`. -/
def dateSepRE : RE :=
  cat [RE.rep pyIsSpace 0 none false, RE.cls dashP, RE.rep pyIsSpace 0 none false]

/-- `nlp.DATE_RANGE_RE =
(?P<start>[\w\s/.]+?)\s*[-–]\s*(?P<end>Present|Now|Current|[\w\s/.]+)` with
`re.I`; groups: 1 = start, 2 = end. -/
def dateRangeRE : RE := cat
  [ RE.grp 1 (RE.rep wsdP 1 none true), RE.rep pyIsSpace 0 none false,
    RE.cls dashP, RE.rep pyIsSpace 0 none false,
    RE.grp 2 (RE.alt (RE.litCI ("present".data))
      (RE.alt (RE.litCI ("now".data))
        (RE.alt (RE.litCI ("current".data)) (RE.rep wsdP 1 none false)))) ]

/-- Block separator `\n{2,}`. -/
def blankRE : RE := RE.rep (fun c => c = '\n') 2 none false

/-- Skill token separator `[,\n;]`. -/
def skillTokRE : RE := RE.cls skillSepP

/-! ### Data model (`extractor.py` dataclasses) and oracles -/

structure ExperienceItem where
  title : Str
  company : Str
  start_date : Str
  end_date : Str
  location : Str
  description : Str
deriving DecidableEq

def ExperienceItem.empty : ExperienceItem := ⟨[], [], [], [], [], []⟩

structure EducationItem where
  school : Str
  degree : Str
  field : Str
  start_year : Str
  end_year : Str
deriving DecidableEq

/-- The profile record built by `split_sections` / `extract_structured_profile`
(its four top-level fields). -/
structure Sections where
  summary : Str
  experience : List ExperienceItem
  education : List EducationItem
  skills : List Str
deriving DecidableEq

/-- The date-parsing oracle `dateparser.parse`, abstracted to the (year,
month) of the returned datetime (`none` = parse failure). -/
abbrev DateOracle := Str → Option (Nat × Nat)

/-- The entity-extraction oracle (spaCy): labelled spans `(text, label)`. -/
abbrev EntOracle := Str → List (Str × Str)

/-- The similarity oracle `rapidfuzz.process.extractOne`: best
`(match, score)` of a query against a vocabulary. -/
abbrev SimOracle := Str → List Str → Option (Str × ℚ)

/-! ### Date-range resolution (`extractor.py` lines 34-107) -/

/-- The `MONTHS` table of `extractor.py`. -/
def MONTHS : List (Str × Nat) :=
  [ (("jan").data, 1), (("january").data, 1),
    (("feb").data, 2), (("february").data, 2),
    (("mar").data, 3), (("march").data, 3),
    (("apr").data, 4), (("april").data, 4),
    (("may").data, 5),
    (("jun").data, 6), (("june").data, 6),
    (("jul").data, 7), (("july").data, 7),
    (("aug").data, 8), (("august").data, 8),
    (("sep").data, 9), (("sept").data, 9), (("september").data, 9),
    (("oct").data, 10), (("october").data, 10),
    (("nov").data, 11), (("november").data, 11),
    (("dec").data, 12), (("december").data, 12) ]

/-- Python `MONTHS.get(key, default)`. -/
def monthsGet (key : Str) (dflt : Nat) : List (Str × Nat) → Nat
  | [] => dflt
  | (k, v) :: t => if k = key then v else monthsGet key dflt t

/-- `_iso_ym(text)`: oracle parse, formatted `YYYY-MM` (`""` on failure). -/
def iso_ym (dp : DateOracle) (text : Str) : Str :=
  if text = [] then []
  else
    match dp text with
    | none => []
    | some (y, m) => fmtYM y m

/-- `_iso_ym_fallback(year, month)`: strip non-digits from `year`
(`re.sub(r"\D", "", year)`), convert (`int` raising on an empty string is the
`except` branch returning `""`), look the 3-letter month prefix up in
`MONTHS` defaulting to 1, format `YYYY-MM`. -/
def iso_ym_fallback (year : Str) (month : Option Str) : Str :=
  let ds := year.filter isDigitC
  if ds = [] then []
  else
    let y := natOfDigits ds
    let m : Nat :=
      match month with
      | none => 1
      | some mo => monthsGet ((lowerStr (stripStr mo)).take 3) 1 MONTHS
    fmtYM y m

/-- Leftmost `re.search(r"(\d{4})", x)`: the first run of four digits. -/
def find4Digits : Str → Option Str
  | [] => none
  | c :: t =>
      let four := (c :: t).take 4
      if four.length = 4 ∧ four.all isDigitC then some four
      else find4Digits t

/-- One attempt of `re.search(r"([A-Za-z]{3,9})\s+(\d{4})", x)` anchored at
the current position: greedy letter count 9 down to 3, then at least one
whitespace, then four digits. -/
def monthYearAt (s : Str) : Option (Str × Str) :=
  firstSome
    (fun n =>
      let ls := s.take n
      if ls.length = n ∧ ls.all isAlphaC then
        let rest := s.drop n
        let sp := rest.takeWhile pyIsSpace
        let digs := (rest.drop sp.length).take 4
        if sp ≠ [] ∧ digs.length = 4 ∧ digs.all isDigitC then some (ls, digs)
        else none
      else none)
    [9, 8, 7, 6, 5, 4, 3]

/-- Leftmost `re.search(r"([A-Za-z]{3,9})\s+(\d{4})", x)`. -/
def findMonthYear : Str → Option (Str × Str)
  | [] => none
  | c :: t =>
      match monthYearAt (c :: t) with
      | some r => some r
      | none => findMonthYear t

/-- The inner `parse_one` of `parse_date_range`. -/
def parse_one (dp : DateOracle) (x : Str) : Str :=
  if x = [] then []
  else if substrCI ("present".data) x || substrCI ("now".data) x ||
          substrCI ("current".data) x then []
  else
    match dp x with
    | some (y, m) => fmtYM y m
    | none =>
        match find4Digits x with
        | some ds => padZ 4 (natOfDigits ds) ++ ('-' :: ('0' :: ['1']))
        | none =>
            match findMonthYear x with
            | some (mo, yr) => iso_ym_fallback yr (some mo)
            | none => []

/-- `parse_date_range(s)`: split `s.strip()` at the first `DATE_SEP` match
(`maxsplit = 1`), resolve each side with `parse_one`. -/
def parse_date_range (dp : DateOracle) (s : Str) : Str × Str :=
  if s = [] then ([], [])
  else
    let parts := searchSplit1 dateSepRE (stripStr s)
    (parse_one dp parts.1, parse_one dp (parts.2.getD []))

/-! ### Experience block parser (`extractor.py` lines 109-159) -/

inductive PatKind where
  | A
  | B
  | C
deriving DecidableEq

/-- The loop over `EXPERIENCE_LINE_PATTERNS`: patterns tried in order, first
match wins. -/
def tryPatterns (fl : Str) : Option (PatKind × Caps) :=
  match reMatch patternA fl with
  | some (c, _) => some (PatKind.A, c)
  | none =>
      match reMatch patternB fl with
      | some (c, _) => some (PatKind.B, c)
      | none =>
          match reMatch patternC fl with
          | some (c, _) => some (PatKind.C, c)
          | none => none

/-- `parse_experience_block(block)`.  `none` models the `ValueError` Python
raises at `first_line, *rest_lines = ...` when the non-blank-line list is
empty (reachable only for a non-empty all-whitespace block, which
`split_sections` never passes). -/
def parse_experience_block (dp : DateOracle) (block : Str) : Option ExperienceItem :=
  if block = [] then some ExperienceItem.empty
  else
    match ((splitlinesPy block).map stripStr).filter (fun l => l ≠ []) with
    | [] => none
    | first_line :: rest_lines =>
        match tryPatterns first_line with
        | some (_, caps) =>
            let title := stripStr (capGet caps 1)
            let company := stripStr (capGet caps 2)
            let dr := parse_date_range dp (capGet caps 3)
            let tail := capGet caps 4
            let lm := reSearch locTailRE tail
            let location :=
              match lm with
              | some (_, c2, _) => stripStr (capGet c2 5)
              | none => []
            let desc :=
              (if tail ≠ [] ∧ lm = none then [stripStr tail] else []) ++
              (if rest_lines ≠ [] then [joinSpace rest_lines] else [])
            let description := stripStr (joinSpace (desc.filter (fun d => d ≠ [])))
            some ⟨title, company, dr.1, dr.2, location, description⟩
        | none =>
            let lines := (splitlinesPy block).filter (fun l => stripStr l ≠ [])
            some ⟨lines.headD [], (lines.drop 1).headD [], [], [], [],
                  joinSpace (lines.drop 2)⟩

/-! ### Education line parser (`extractor.py` lines 184-204) -/

def parseEducationLine (line : Str) : EducationItem :=
  match reMatch eduRE line with
  | some (caps, _) =>
      let years := stripStr (capGet caps 4)
      let se : Str × Str :=
        match reSearch ymRE years with
        | some (_, c2, _) =>
            (capGet c2 6,
             if lowerStr (capGet c2 7) = ("present").data then [] else capGet c2 7)
        | none => ([], [])
      ⟨stripStr (capGet caps 1), stripStr (capGet caps 2), stripStr (capGet caps 3),
       se.1, se.2⟩
  | none => ⟨line, [], [], [], []⟩

/-! ### Section segmenter (`extractor.py` lines 164-217) -/

/-- `re.split(SECTION_REGEX, text)` reshaped into the leading part and the
`(matched keyword, following content)` pairs the loop consumes. -/
def sectionSplit : Nat → Str → Str × List (Str × Str)
  | 0, s => (s, [])
  | fuel + 1, s =>
      match reSearch sectionRE s with
      | none => (s, [])
      | some (i, _, rem) =>
          let consumed := (s.length - i) - rem.length
          if consumed = 0 then (s, [])
          else
            let matched := (s.drop i).take consumed
            let r := sectionSplit fuel rem
            (s.take i, (matched, r.1) :: r.2)

def splitSectionParts (s : Str) : Str × List (Str × Str) :=
  sectionSplit (s.length + 1) s

/-- The inner dedup of the skills branch (`seen`/`clean` loop). -/
def skillCleanAux (seen : List Str) : List Str → List Str
  | [] => []
  | s :: rest =>
      let k := lowerStr s
      if k ∈ seen then skillCleanAux seen rest
      else s :: skillCleanAux (k :: seen) rest

def skillClean (toks : List Str) : List Str := skillCleanAux [] toks

/-- The `for block in ...: sections["experience"].append(...)` loop; `none`
propagates an exception raised by `parse_experience_block`. -/
def parseBlocks (dp : DateOracle) : List Str → Option (List ExperienceItem)
  | [] => some []
  | b :: rest =>
      match parse_experience_block dp b with
      | none => none
      | some it =>
          match parseBlocks dp rest with
          | none => none
          | some its => some (it :: its)

/-- The `for i in range(1, len(parts), 2)` loop of `split_sections`. -/
def sectionLoop (dp : DateOracle) : Sections → List (Str × Str) → Option Sections
  | acc, [] => some acc
  | acc, (nm, ct) :: rest =>
      let name := lowerStr nm
      let content := stripStr ct
      if substrP ("experience".data) name then
        match parseBlocks dp (((reSplit blankRE content).map stripStr).filter
            (fun b => b ≠ [])) with
        | some items =>
            sectionLoop dp { acc with experience := acc.experience ++ items } rest
        | none => none
      else if substrP ("education".data) name then
        let lines := ((splitlinesPy content).map stripStr).filter (fun l => l ≠ [])
        sectionLoop dp
          { acc with education := acc.education ++ lines.map parseEducationLine } rest
      else if substrP ("skills".data) name then
        let toks := ((reSplit skillTokRE content).map stripStr).filter (fun t => t ≠ [])
        sectionLoop dp { acc with skills := acc.skills ++ skillClean toks } rest
      else sectionLoop dp acc rest

/-- `split_sections(text)`. -/
def split_sections (dp : DateOracle) (text : Str) : Option Sections :=
  let parts := splitSectionParts text
  sectionLoop dp ⟨stripStr parts.1, [], [], []⟩ parts.2

/-! ### NER enrichment adapter (`nlp.py` lines 29-51, `extractor.py` 220-238) -/

/-- `nlp.extract_dates(text)` (pure regex). -/
def extract_dates (text : Str) : Str × Str :=
  match reSearch dateRangeRE text with
  | none => ([], [])
  | some (_, caps, _) => (stripStr (capGet caps 1), stripStr (capGet caps 2))

/-- `nlp.guess_company_and_title(text)`, returning `(company, title)`. -/
def guess_company_and_title (ents : EntOracle) (text : Str) : Str × Str :=
  let es := ents text
  let orgs := (es.filter (fun e => e.2 = ("ORG").data)).map (fun e => e.1)
  let titles0 := (es.filter (fun e => e.2 = ("TITLE").data)).map (fun e => e.1)
  let titles :=
    if titles0 = [] then
      match splitlinesPy text with
      | [] => []
      | fl :: _ => [stripStr (joinSpace ((splitWS fl).take 3))]
    else titles0
  (match orgs with
   | [] => []
   | o :: _ => stripStr o,
   match titles with
   | [] => []
   | t :: _ => t)

/-- `nlp.collect_skills(text)`. -/
def collect_skills (ents : EntOracle) (text : Str) : List Str :=
  ((ents text).filter (fun e => e.2 = ("SKILL").data)).map (fun e => e.1)

/-- `_enrich_experience_with_ner(item)`. -/
def enrich_experience_with_ner (ents : EntOracle) (dp : DateOracle)
    (item : ExperienceItem) : ExperienceItem :=
  let blob := joinSpace ([item.title, item.company, item.description].filter
    (fun x => x ≠ []))
  let item1 :=
    if item.title = [] ∨ item.company = [] then
      let g := guess_company_and_title ents blob
      { item with
        title := if item.title ≠ [] then item.title else g.2,
        company := if item.company ≠ [] then item.company else g.1 }
    else item
  if item1.start_date = [] ∧ item1.end_date = [] then
    let dr := extract_dates blob
    let item2 :=
      if dr.1 ≠ [] then { item1 with start_date := iso_ym dp dr.1 } else item1
    if dr.2 ≠ [] then
      { item2 with end_date :=
          if substrCI ("present".data) dr.2 || substrCI ("now".data) dr.2 ||
             substrCI ("current".data) dr.2 then []
          else iso_ym dp dr.2 }
    else item2
  else item1

/-! ### Canonical normalizer (`normalizer.py`) -/

def CANONICAL_TITLES : List Str :=
  [ ("Software Engineer").data, ("Data Scientist").data,
    ("Machine Learning Engineer").data, ("Data Engineer").data,
    ("Product Manager").data, ("Research Scientist").data ]

def CANONICAL_SKILLS : List Str :=
  [ ("Python").data, ("Java").data, ("C++").data, ("SQL").data,
    ("TensorFlow").data, ("PyTorch").data, ("spaCy").data, ("NLP").data,
    ("Computer Vision").data, ("Docker").data, ("Kubernetes").data,
    ("AWS").data, ("Azure").data, ("GCP").data ]

/-- `normalize_job_title(raw, min_score = 80)`. -/
def normalize_job_title (sim : SimOracle) (raw : Str) : Str :=
  if raw = [] then raw
  else
    match sim raw CANONICAL_TITLES with
    | some (m, sc) => if 80 ≤ sc then m else raw
    | none => raw

/-- The normalization applied to one skill inside `normalize_skills`. -/
def normOneSkill (sim : SimOracle) (s : Str) : Str :=
  match sim s CANONICAL_SKILLS with
  | some (m, sc) => if 85 ≤ sc then m else s
  | none => s

def normSkillsAux (sim : SimOracle) (seen : List Str) : List Str → List Str
  | [] => []
  | s :: rest =>
      if s = [] then normSkillsAux sim seen rest
      else
        let norm := normOneSkill sim s
        let key := lowerStr norm
        if key ∈ seen then normSkillsAux sim seen rest
        else norm :: normSkillsAux sim (key :: seen) rest

/-- `normalize_skills(raw_skills, min_score = 85)`. -/
def normalize_skills (sim : SimOracle) (l : List Str) : List Str :=
  normSkillsAux sim [] l

/-! ### Skill aggregation and final normalization (`extractor.py` 240-273) -/

/-- The `seen`/`dedup` loop of `_normalize_structured`: case-insensitive
dedup on stripped entries, keeping first-occurrence order and casing. -/
def dedupSkillsAux (seen : List Str) : List Str → List Str
  | [] => []
  | s :: rest =>
      let k := lowerStr (stripStr s)
      if k ≠ [] ∧ k ∉ seen then stripStr s :: dedupSkillsAux (k :: seen) rest
      else dedupSkillsAux seen rest

def dedupSkills (l : List Str) : List Str := dedupSkillsAux [] l

/-- `_normalize_structured(sections)`. -/
def normalize_structured (ents : EntOracle) (sim : SimOracle)
    (sections : Sections) : Sections :=
  let extra := joinSpace (sections.summary ::
    sections.experience.map (fun e => e.description))
  let ner := collect_skills ents extra
  let merged := sections.skills ++ ner
  { sections with
    skills := normalize_skills sim (dedupSkills merged),
    experience := sections.experience.map
      (fun e => { e with title := normalize_job_title sim e.title }) }

/-- `extract_structured_profile(text)`. -/
def extract_structured_profile (dp : DateOracle) (ents : EntOracle)
    (sim : SimOracle) (text : Str) : Option Sections :=
  (split_sections dp text).map (fun s =>
    normalize_structured ents sim
      { s with experience := s.experience.map (enrich_experience_with_ner ents dp) })

/-! ### Shape predicates, group bookkeeping and concrete instances -/

/-- The regex `^\d{4}-\d{2}$` of the spec's date-format contract. -/
def isYYYYMM (s : Str) : Bool :=
  match s with
  | [a, b, c, d, e, f, g] =>
      isDigitC a && isDigitC b && isDigitC c && isDigitC d &&
      (e = '-') && isDigitC f && isDigitC g
  | _ => false

/-- The regex `^\d{4}$` of the education-year contract. -/
def is4Digits (s : Str) : Bool :=
  match s with
  | [a, b, c, d] => isDigitC a && isDigitC b && isDigitC c && isDigitC d
  | _ => false

/-- `grpFree r i` holds when `r` contains no capture group of index `i`. -/
def grpFree : RE → Nat → Bool
  | .cls _, _ => true
  | .lit _, _ => true
  | .litCI _, _ => true
  | .seq a b, i => grpFree a i && grpFree b i
  | .alt a b, i => grpFree a i && grpFree b i
  | .rep _ _ _ _, _ => true
  | .grp j r, i => (decide (j ≠ i)) && grpFree r i
  | .opt r, i => grpFree r i
  | .eos, _ => true

/-- A date oracle that always fails (every fallback path is exercised). -/
def dpNone : DateOracle := fun _ => none

/-- An entity oracle returning no entities. -/
def entsNone : EntOracle := fun _ => []

/-- A similarity oracle that recognises exact vocabulary members with the
maximal score and fails otherwise. -/
def simExact : SimOracle := fun q choices => if q ∈ choices then some (q, 100) else none

/-- A date oracle behaving like `dateparser` on the only span the end-to-end
scenario feeds it. -/
def dpC2 : DateOracle := fun s => if s = ("Jan 2021").data then some (2021, 1) else none

/-- The end-to-end scenario input of the spec. -/
def c2text : Str :=
  ("Summary\nML Engineer.\n\nExperience\nMachine Learning Engineer at OpenAI (Jan 2021 - Present)\nWorking on NLP.\n\nEducation\nMIT – M.Sc., CS (2016–2018)\n\nSkills\nPython, SQL, python").data

/-- The profile the code actually produces on `c2text` (the spec's expected
profile, except that the summary keeps the leading `Summary` heading line). -/
def c2expected : Sections :=
  ⟨ ("Summary\nML Engineer.").data,
    [⟨("Machine Learning Engineer").data, ("OpenAI").data, ("2021-01").data, [], [],
      ("Working on NLP.").data⟩],
    [⟨("MIT").data, ("M.Sc.").data, ("CS").data, ("2016").data, ("2018").data⟩],
    [("Python").data, ("SQL").data] ⟩

/-- The education line of the end-to-end scenario, reused as a concrete
education-parser input. -/
def c8line : Str := ("MIT – M.Sc., CS (2016–2018)").data

/-! ### Lemmas on whitespace stripping -/

theorem pyIsSpace_of_isLineTerm {c : Char} (h : isLineTerm c = true) :
    pyIsSpace c = true := by
  simp only [isLineTerm, Bool.or_eq_true, decide_eq_true_eq] at h
  simp only [pyIsSpace, Bool.or_eq_true, decide_eq_true_eq]
  tauto

theorem dropWhile_len_le (p : Char → Bool) (l : Str) :
    (l.dropWhile p).length ≤ l.length := by
  induction l with
  | nil => simp
  | cons c t ih =>
      rw [List.dropWhile_cons]
      by_cases hp : p c = true
      · simp only [hp, if_true]
        exact Nat.le_trans ih (by simp)
      · simp [hp]

theorem dropWhile_head_not (p : Char → Bool) (l : Str) {c : Char} {t : Str}
    (h : l.dropWhile p = c :: t) : p c = false := by
  induction l with
  | nil => simp at h
  | cons a l ih =>
      rw [List.dropWhile_cons] at h
      by_cases hp : p a = true
      · simp only [hp, if_true] at h
        exact ih h
      · simp only [hp, if_false] at h
        cases h
        simpa using hp

theorem mem_dropWhile_of_mem {p : Char → Bool} {l : Str} {e : Char}
    (he : e ∈ l) (hp : p e = false) : e ∈ l.dropWhile p := by
  induction l with
  | nil => cases he
  | cons a t ih =>
      rw [List.dropWhile_cons]
      by_cases ha : p a = true
      · simp only [ha, if_true]
        rcases List.mem_cons.mp he with h | h
        · subst h
          rw [ha] at hp
          cases hp
        · exact ih h
      · simp [ha, he]

theorem mem_takeWhile_sat {p : Char → Bool} {l : Str} {e : Char}
    (he : e ∈ l.takeWhile p) : p e = true := by
  induction l with
  | nil => simp at he
  | cons a t ih =>
      rw [List.takeWhile_cons] at he
      by_cases ha : p a = true
      · simp only [ha, if_true] at he
        rcases List.mem_cons.mp he with h | h
        · subst h; exact ha
        · exact ih h
      · simp [ha] at he

theorem dropWhile_append_last {p : Char → Bool} {xs : Str} {c : Char}
    (hc : p c = false) : (xs ++ [c]).dropWhile p = xs.dropWhile p ++ [c] := by
  induction xs with
  | nil => simp [List.dropWhile, hc]
  | cons a t ih =>
      rw [List.cons_append, List.dropWhile_cons, List.dropWhile_cons]
      by_cases ha : p a = true
      · simp [ha, ih]
      · simp [ha]

/-- `stripStr` of a string with a non-whitespace head keeps that head. -/
theorem stripStr_cons (c : Char) (u : Str) (hc : pyIsSpace c = false) :
    stripStr (c :: u) = c :: (u.reverse.dropWhile pyIsSpace).reverse := by
  unfold stripStr lstrip rstrip
  rw [List.dropWhile_cons]
  simp only [hc, if_false, Bool.false_eq_true]
  rw [List.reverse_cons, dropWhile_append_last hc]
  simp

theorem stripStr_cons_ne_nil {c : Char} {u : Str} (hc : pyIsSpace c = false) :
    stripStr (c :: u) ≠ [] := by
  rw [stripStr_cons c u hc]
  simp

/-- A string containing a non-whitespace character strips to a non-empty
string. -/
theorem stripStr_ne_nil_of_mem {l : Str} {e : Char} (he : e ∈ l)
    (hp : pyIsSpace e = false) : stripStr l ≠ [] := by
  unfold stripStr lstrip rstrip
  intro hnil
  have h1 : e ∈ l.dropWhile pyIsSpace := mem_dropWhile_of_mem he hp
  have h2 : e ∈ (l.dropWhile pyIsSpace).reverse := by simpa using h1
  have h3 : e ∈ (l.dropWhile pyIsSpace).reverse.dropWhile pyIsSpace :=
    mem_dropWhile_of_mem h2 hp
  have h4 := List.reverse_eq_nil_iff.mp hnil
  rw [h4] at h3
  cases h3

/-- The head of a non-empty stripped string is not whitespace. -/
theorem stripStr_head_not_space {s : Str} {c : Char} {t : Str}
    (h : stripStr s = c :: t) : pyIsSpace c = false := by
  unfold stripStr rstrip at h
  have hsplit := List.takeWhile_append_dropWhile (p := pyIsSpace)
    (l := (lstrip s).reverse)
  have hls : lstrip s =
      c :: (t ++ ((lstrip s).reverse.takeWhile pyIsSpace).reverse) := by
    conv_lhs => rw [← List.reverse_reverse (lstrip s), ← hsplit]
    rw [List.reverse_append, h]
    simp
  exact dropWhile_head_not pyIsSpace s (by simpa [lstrip] using hls)

/-! ### Lemmas on `splitlinesPy` and totality of the block parser -/

/-- With a non-empty accumulator, the first produced line extends the
accumulated characters. -/
theorem splitlinesGo_head_app :
    ∀ (fuel : Nat) (t cur : Str), t.length ≤ fuel → cur ≠ [] →
      ∃ x rest, splitlinesGo fuel cur t = (cur.reverse ++ x) :: rest := by
  intro fuel
  induction fuel with
  | zero =>
      intro t cur hlen hc
      have ht : t = [] := by
        cases t with
        | nil => rfl
        | cons a b => simp at hlen
      subst ht
      refine ⟨[], [], ?_⟩
      simp [splitlinesGo, hc]
  | succ f ih =>
      intro t cur hlen hc
      cases t with
      | nil =>
          refine ⟨[], [], ?_⟩
          simp [splitlinesGo, hc]
      | cons c t2 =>
          rw [splitlinesGo]
          by_cases h1 : c = '\r' ∧ t2.head? = some '\n'
          · refine ⟨[], splitlinesGo f [] t2.tail, ?_⟩
            simp [h1]
          · by_cases h2 : isLineTerm c = true
            · refine ⟨[], splitlinesGo f [] t2, ?_⟩
              rw [if_neg h1, if_pos h2]
              simp
            · obtain ⟨x, rest, hx⟩ := ih t2 (c :: cur)
                (by simp only [List.length_cons] at hlen; omega) (by simp)
              refine ⟨c :: x, rest, ?_⟩
              rw [if_neg h1, if_neg (by simp [h2]), hx]
              simp

/-- A block whose head is a non-whitespace character has at least one
non-blank line. -/
theorem nonblankLines_ne_nil {c : Char} {t : Str} (hc : pyIsSpace c = false) :
    ((splitlinesPy (c :: t)).map stripStr).filter (fun l => l ≠ []) ≠ [] := by
  have hterm : isLineTerm c = false := by
    cases h : isLineTerm c
    · rfl
    · rw [pyIsSpace_of_isLineTerm h] at hc
      cases hc
  have hcr : ¬(c = '\r' ∧ t.head? = some '\n') := by
    rintro ⟨h1, _⟩
    subst h1
    simp [pyIsSpace] at hc
  unfold splitlinesPy
  rw [List.length_cons, splitlinesGo, if_neg hcr, if_neg (by simp [hterm])]
  obtain ⟨x, rest, hx⟩ := splitlinesGo_head_app t.length t [c] (Nat.le_refl _) (by simp)
  rw [hx]
  have hne : stripStr ([c].reverse ++ x) ≠ [] := by
    simpa using stripStr_cons_ne_nil (u := x) hc
  simp only [List.map_cons, List.filter_cons]
  rw [if_pos (by simpa using hne)]
  simp

theorem parseBlocks_isSome {dp : DateOracle} {l : List Str}
    (h : ∀ x ∈ l, (parse_experience_block dp x).isSome) :
    (parseBlocks dp l).isSome := by
  induction l with
  | nil => simp [parseBlocks]
  | cons a t ih =>
      rw [parseBlocks]
      obtain ⟨v, hv⟩ := Option.isSome_iff_exists.mp (h a (by simp))
      have ht := ih (fun x hx => h x (by simp [hx]))
      obtain ⟨w, hw⟩ := Option.isSome_iff_exists.mp ht
      simp [hv, hw]

/-- `parse_experience_block` succeeds on every stripped non-empty block,
i.e. on every block `split_sections` passes to it. -/
theorem parse_experience_block_isSome (dp : DateOracle) (b : Str)
    (hb : stripStr b ≠ []) : (parse_experience_block dp (stripStr b)).isSome := by
  obtain ⟨c, t, hct⟩ : ∃ c t, stripStr b = c :: t := by
    cases h : stripStr b with
    | nil => exact absurd h hb
    | cons c t => exact ⟨c, t, rfl⟩
  have hc : pyIsSpace c = false := stripStr_head_not_space hct
  rw [hct]
  rw [parse_experience_block, if_neg (by simp)]
  have hnl := nonblankLines_ne_nil (t := t) hc
  cases hlines : ((splitlinesPy (c :: t)).map stripStr).filter (fun l => l ≠ []) with
  | nil => exact absurd hlines hnl
  | cons fl rls =>
      cases h3 : tryPatterns fl with
      | none => simp [h3]
      | some pc => simp [h3]

/-- The section loop never fails: every block it parses has been stripped
and checked non-empty. -/
theorem sectionLoop_isSome (dp : DateOracle) (pairs : List (Str × Str)) :
    ∀ acc, (sectionLoop dp acc pairs).isSome := by
  induction pairs with
  | nil => intro acc; simp [sectionLoop]
  | cons p rest ih =>
      intro acc
      obtain ⟨nm, ct⟩ := p
      rw [sectionLoop]
      by_cases h1 : substrP (("experience").data) (lowerStr nm) = true
      · simp only [h1, if_true]
        have hblocks : (parseBlocks dp
            (((reSplit blankRE (stripStr ct)).map stripStr).filter
              (fun b => b ≠ []))).isSome := by
          apply parseBlocks_isSome
          intro x hx
          obtain ⟨hx1, hx2⟩ := List.mem_filter.mp hx
          obtain ⟨raw, _, hraw⟩ := List.mem_map.mp hx1
          subst hraw
          exact parse_experience_block_isSome dp raw (by simpa using hx2)
        obtain ⟨items, hitems⟩ := Option.isSome_iff_exists.mp hblocks
        simp only [hitems]
        exact ih _
      · simp only [h1, if_false, Bool.false_eq_true]
        by_cases h2 : substrP (("education").data) (lowerStr nm) = true
        · simp only [h2, if_true]
          exact ih _
        · simp only [h2, if_false, Bool.false_eq_true]
          by_cases h3 : substrP (("skills").data) (lowerStr nm) = true
          · simp only [h3, if_true]
            exact ih _
          · simp only [h3, if_false, Bool.false_eq_true]
            exact ih _

/-- The section loop never touches the summary. -/
theorem sectionLoop_summary (dp : DateOracle) (pairs : List (Str × Str)) :
    ∀ acc out, sectionLoop dp acc pairs = some out → out.summary = acc.summary := by
  induction pairs with
  | nil =>
      intro acc out h
      rw [sectionLoop] at h
      cases h
      rfl
  | cons p rest ih =>
      intro acc out h
      obtain ⟨nm, ct⟩ := p
      rw [sectionLoop] at h
      by_cases h1 : substrP (("experience").data) (lowerStr nm) = true
      · simp only [h1, if_true] at h
        cases hit : parseBlocks dp (((reSplit blankRE (stripStr ct)).map stripStr).filter
            (fun b => b ≠ [])) with
        | none => rw [hit] at h; cases h
        | some items =>
            rw [hit] at h
            exact (ih { acc with experience := acc.experience ++ items } out h).trans rfl
      · simp only [h1, if_false, Bool.false_eq_true] at h
        by_cases h2 : substrP (("education").data) (lowerStr nm) = true
        · simp only [h2, if_true] at h
          exact (ih _ out h).trans rfl
        · simp only [h2, if_false, Bool.false_eq_true] at h
          by_cases h3 : substrP (("skills").data) (lowerStr nm) = true
          · simp only [h3, if_true] at h
            exact (ih _ out h).trans rfl
          · simp only [h3, if_false, Bool.false_eq_true] at h
            exact ih _ _ h

/-- `split_sections` never fails. -/
theorem split_sections_isSome (dp : DateOracle) (text : Str) :
    (split_sections dp text).isSome := by
  rw [split_sections]
  exact sectionLoop_isSome dp _ _

/-- The pipeline never fails (the Python `ValueError` site is unreachable
from `extract_structured_profile`). -/
theorem extract_isSome (dp : DateOracle) (ents : EntOracle) (sim : SimOracle)
    (text : Str) : (extract_structured_profile dp ents sim text).isSome := by
  rw [extract_structured_profile]
  obtain ⟨s, hs⟩ := Option.isSome_iff_exists.mp (split_sections_isSome dp text)
  simp [hs]

/-- Every element of a stripped prefix of a stripped line exists; concretely:
taking `n ≥ 1` characters from a string with non-whitespace head strips to a
non-empty string. -/
theorem stripStr_take_ne_nil {c : Char} {t : Str} {n : Nat}
    (hc : pyIsSpace c = false) (hn : 1 ≤ n) : stripStr ((c :: t).take n) ≠ [] := by
  match n, hn with
  | n + 1, _ =>
      rw [List.take_succ_cons]
      exact stripStr_cons_ne_nil hc

/-! ### Decimal formatting lemmas -/

theorem digitChar_isDigit {n : Nat} (h : n ≤ 9) : isDigitC (digitChar n) = true := by
  interval_cases n <;> decide

theorem decDigitsAux_digits :
    ∀ fuel n, n < fuel → ∀ c ∈ decDigitsAux fuel n, isDigitC c = true := by
  intro fuel
  induction fuel with
  | zero => intro n h; omega
  | succ f ih =>
      intro n hn c hc
      rw [decDigitsAux] at hc
      by_cases h10 : n < 10
      · rw [if_pos h10] at hc
        rcases List.mem_singleton.mp hc with rfl
        exact digitChar_isDigit (by omega)
      · rw [if_neg h10] at hc
        rcases List.mem_append.mp hc with h | h
        · have hdiv : n / 10 < n := Nat.div_lt_self (by omega) (by omega)
          exact ih (n / 10) (by omega) c h
        · rcases List.mem_singleton.mp h with rfl
          exact digitChar_isDigit (by
            have := Nat.mod_lt n (show 0 < 10 by omega)
            omega)

theorem decDigitsAux_len :
    ∀ fuel n k, n < fuel → n < 10 ^ k → 1 ≤ k →
      (decDigitsAux fuel n).length ≤ k := by
  intro fuel
  induction fuel with
  | zero => intro n k h; omega
  | succ f ih =>
      intro n k hn hk hk1
      rw [decDigitsAux]
      by_cases h10 : n < 10
      · rw [if_pos h10]
        simpa using hk1
      · rw [if_neg h10]
        have hk2 : 2 ≤ k := by
          by_contra hlt
          have hk1' : k = 1 := by omega
          subst hk1'
          simp at hk
          omega
        have hdiv : n / 10 < n := Nat.div_lt_self (by omega) (by omega)
        have hdivpow : n / 10 < 10 ^ (k - 1) := by
          have hmul : 10 ^ k = 10 ^ (k - 1) * 10 := by
            conv_lhs => rw [show k = (k - 1) + 1 by omega]
            rw [pow_succ]
          rw [Nat.div_lt_iff_lt_mul (by omega)]
          omega
        have := ih (n / 10) (k - 1) (by omega) hdivpow (by omega)
        simp only [List.length_append, List.length_singleton]
        omega

theorem decDigits_digits {n : Nat} : ∀ c ∈ decDigits n, isDigitC c = true :=
  decDigitsAux_digits (n + 1) n (by omega)

theorem decDigits_len4 {n : Nat} (h : n ≤ 9999) : (decDigits n).length ≤ 4 :=
  decDigitsAux_len (n + 1) n 4 (by omega) (by omega) (by omega)

theorem decDigits_len2 {n : Nat} (h : n ≤ 99) : (decDigits n).length ≤ 2 :=
  decDigitsAux_len (n + 1) n 2 (by omega) (by omega) (by omega)

theorem padZ_len {w n : Nat} (h : (decDigits n).length ≤ w) :
    (padZ w n).length = w := by
  rw [padZ]
  simp only [List.length_append, List.length_replicate]
  omega

theorem padZ_digits {w n : Nat} : ∀ c ∈ padZ w n, isDigitC c = true := by
  intro c hc
  rcases List.mem_append.mp hc with h | h
  · rcases List.eq_of_mem_replicate h with rfl
    decide
  · exact decDigits_digits c h

theorem list_of_len2 {l : Str} (h : l.length = 2) : ∃ a b, l = [a, b] := by
  match l, h with
  | [a, b], _ => exact ⟨a, b, rfl⟩

theorem list_of_len4 {l : Str} (h : l.length = 4) : ∃ a b c d, l = [a, b, c, d] := by
  match l, h with
  | [a, b, c, d], _ => exact ⟨a, b, c, d, rfl⟩

/-- `f"{y:04d}-{m:02d}"` has the `YYYY-MM` shape whenever the year has at
most four and the month at most two digits. -/
theorem fmtYM_shape {y m : Nat} (hy : y ≤ 9999) (hm : m ≤ 99) :
    isYYYYMM (fmtYM y m) = true := by
  obtain ⟨a, b, c, d, h4⟩ := list_of_len4 (padZ_len (decDigits_len4 hy))
  obtain ⟨e, f, h2⟩ := list_of_len2 (padZ_len (decDigits_len2 hm))
  have ha := padZ_digits (w := 4) (n := y)
  have hb := padZ_digits (w := 2) (n := m)
  rw [h4] at ha
  rw [h2] at hb
  rw [fmtYM, h4, h2]
  simp only [List.cons_append, List.nil_append, isYYYYMM]
  rw [ha a (by simp), ha b (by simp), ha c (by simp), ha d (by simp),
    hb e (by simp), hb f (by simp)]
  simp

/-! ### Lemmas about the regex engine -/

theorem takeWhile_len_le (p : Char → Bool) (l : Str) :
    (l.takeWhile p).length ≤ l.length := by
  induction l with
  | nil => simp
  | cons c t ih =>
      rw [List.takeWhile_cons]
      by_cases hp : p c = true
      · simp only [hp, if_true, List.length_cons]
        omega
      · simp [hp]

theorem orElse_some {a : Option α} {f : Unit → Option α} {x : α}
    (h : a.orElse f = some x) : a = some x ∨ (a = none ∧ f () = some x) := by
  cases a with
  | none => exact Or.inr ⟨rfl, h⟩
  | some v => exact Or.inl h

theorem firstSome_some {f : α → Option β} {l : List α} {b : β}
    (h : firstSome f l = some b) : ∃ a ∈ l, f a = some b := by
  induction l with
  | nil => simp [firstSome] at h
  | cons a t ih =>
      rw [firstSome] at h
      rcases orElse_some h with h1 | ⟨_, h2⟩
      · exact ⟨a, by simp, h1⟩
      · obtain ⟨a2, ha2, hf⟩ := ih h2
        exact ⟨a2, by simp [ha2], hf⟩

theorem repKs_mem {lo : Nat} {hi : Option Nat} {lzy : Bool} {run n : Nat}
    (h : n ∈ repKs lo hi lzy run) :
    lo ≤ n ∧ n ≤ hi.getD run ∧ n ≤ run := by
  rw [repKs] at h
  by_cases hlt : min (hi.getD run) run < lo
  · rw [if_pos hlt] at h
    cases h
  · rw [if_neg hlt] at h
    have hmem : n ∈ List.range' lo (min (hi.getD run) run - lo + 1) := by
      by_cases hl : lzy = true
      · rw [if_pos hl] at h
        exact h
      · rw [if_neg hl] at h
        exact List.mem_reverse.mp h
    have hr := List.mem_range'_1.mp hmem
    have h3 : n < lo + (min (hi.getD run) run - lo + 1) := hr.2
    have h4 : min (hi.getD run) run ≤ run := Nat.min_le_right _ _
    have h5 : min (hi.getD run) run ≤ hi.getD run := Nat.min_le_left _ _
    exact ⟨hr.1, by omega, by omega⟩

/-- `reCore` hands a successful continuation a capture list that agrees with
the incoming one on every index the pattern does not capture. -/
theorem reCore_caps {r : RE} :
    ∀ {caps : Caps} {s : Str} {k : Caps → Str → Option (Caps × Str)}
      {res : Caps × Str}, reCore r caps s k = some res →
      ∃ c2 r2, k c2 r2 = some res ∧
        ∀ i, grpFree r i = true → capFind c2 i = capFind caps i := by
  induction r with
  | cls p =>
      intro caps s k res h
      cases s with
      | nil => simp [reCore] at h
      | cons c t =>
          rw [reCore] at h
          by_cases hp : p c = true
          · rw [if_pos hp] at h
            exact ⟨caps, t, h, fun i _ => rfl⟩
          · rw [if_neg hp] at h
            cases h
  | lit cs =>
      intro caps s k res h
      rw [reCore] at h
      cases hl : litMatch cs s with
      | some t =>
          rw [hl] at h
          exact ⟨caps, t, h, fun i _ => rfl⟩
      | none => rw [hl] at h; cases h
  | litCI cs =>
      intro caps s k res h
      rw [reCore] at h
      cases hl : litMatchCI cs s with
      | some t =>
          rw [hl] at h
          exact ⟨caps, t, h, fun i _ => rfl⟩
      | none => rw [hl] at h; cases h
  | seq a b iha ihb =>
      intro caps s k res h
      rw [reCore] at h
      obtain ⟨c1, r1, hk1, hp1⟩ := iha h
      obtain ⟨c2, r2, hk2, hp2⟩ := ihb hk1
      refine ⟨c2, r2, hk2, fun i hi => ?_⟩
      rw [grpFree, Bool.and_eq_true] at hi
      rw [hp2 i hi.2, hp1 i hi.1]
  | alt a b iha ihb =>
      intro caps s k res h
      rw [reCore] at h
      rcases orElse_some h with h1 | ⟨_, h2⟩
      · obtain ⟨c2, r2, hk, hp⟩ := iha h1
        refine ⟨c2, r2, hk, fun i hi => ?_⟩
        rw [grpFree, Bool.and_eq_true] at hi
        exact hp i hi.1
      · obtain ⟨c2, r2, hk, hp⟩ := ihb h2
        refine ⟨c2, r2, hk, fun i hi => ?_⟩
        rw [grpFree, Bool.and_eq_true] at hi
        exact hp i hi.2
  | rep p lo hi lzy =>
      intro caps s k res h
      rw [reCore] at h
      obtain ⟨n, _, hn⟩ := firstSome_some h
      exact ⟨caps, s.drop n, hn, fun i _ => rfl⟩
  | grp j r ihr =>
      intro caps s k res h
      rw [reCore] at h
      obtain ⟨c1, r1, hk1, hp1⟩ := ihr h
      refine ⟨(j, s.take (s.length - r1.length)) :: c1, r1, hk1, fun i hi => ?_⟩
      rw [grpFree, Bool.and_eq_true, decide_eq_true_eq] at hi
      rw [capFind, if_neg hi.1]
      exact hp1 i hi.2
  | opt r ihr =>
      intro caps s k res h
      rw [reCore] at h
      rcases orElse_some h with h1 | ⟨_, h2⟩
      · obtain ⟨c2, r2, hk, hp⟩ := ihr h1
        exact ⟨c2, r2, hk, fun i hi => hp i (by rwa [grpFree] at hi)⟩
      · exact ⟨caps, s, h2, fun i _ => rfl⟩
  | eos =>
      intro caps s k res h
      rw [reCore] at h
      by_cases hc : s = [] ∨ s = ['\n']
      · rw [if_pos hc] at h
        exact ⟨caps, s, h, fun i _ => rfl⟩
      · rw [if_neg hc] at h
        cases h

/-- A successful anchored match of a pattern of the shape
`(group g: .+?) tail` records a non-empty prefix of the subject under
index `g` (the experience header patterns and the education pattern all
begin this way). -/
theorem reMatch_head_grp {g : Nat} {p : Char → Bool} {tail : RE} {s : Str}
    {caps : Caps} {rem : Str}
    (h : reMatch (RE.seq (RE.grp g (RE.rep p 1 none true)) tail) s = some (caps, rem))
    (hfree : grpFree tail g = true) :
    ∃ n, 1 ≤ n ∧ n ≤ s.length ∧ capFind caps g = some (s.take n) := by
  rw [reMatch, reCore, reCore, reCore] at h
  obtain ⟨n, hmem, hn⟩ := firstSome_some h
  obtain ⟨hlo, _, hhi⟩ := repKs_mem hmem
  have hrun : (s.takeWhile p).length ≤ s.length := takeWhile_len_le p s
  have hns : n ≤ s.length := le_trans hhi hrun
  simp only [List.length_drop] at hn
  have htake : s.length - (s.length - n) = n := by omega
  rw [htake] at hn
  obtain ⟨c2, r2, hk2, hp2⟩ := reCore_caps hn
  have hinj : (c2, r2) = (caps, rem) := Option.some.inj hk2
  have hc2 : c2 = caps := congrArg Prod.fst hinj
  refine ⟨n, hlo, hns, ?_⟩
  have hfind := hp2 g hfree
  rw [hc2] at hfind
  rw [hfind]
  simp [capFind]

theorem take_all_of_le_takeWhile {p : Char → Bool} {s : Str} {n : Nat}
    (h : n ≤ (s.takeWhile p).length) : (s.take n).all p = true := by
  rw [List.all_eq_true]
  intro c hc
  have h1 : s.take n = (s.takeWhile p).take n := by
    conv_lhs => rw [← List.takeWhile_append_dropWhile (p := p) (l := s)]
    rw [List.take_append_of_le_length h]
  rw [h1] at hc
  exact mem_takeWhile_sat (List.mem_of_mem_take hc)

/-- `reSearch` tries positions left to right: a hit at index `i` is an
anchored match on `s.drop i`. -/
theorem reSearchAux_inv {r : RE} :
    ∀ {s : Str} {j i : Nat} {c : Caps} {rem : Str},
      reSearchAux r s j = some (i, c, rem) →
      j ≤ i ∧ i - j ≤ s.length ∧ reMatch r (s.drop (i - j)) = some (c, rem) := by
  intro s
  induction s with
  | nil =>
      intro j i c rem h
      rw [reSearchAux] at h
      cases hm : reMatch r [] with
      | some p =>
          rw [hm] at h
          obtain ⟨p1, p2⟩ := p
          cases h
          exact ⟨Nat.le_refl _, by simp, by simpa using hm⟩
      | none => rw [hm] at h; cases h
  | cons c0 t ih =>
      intro j i c rem h
      rw [reSearchAux] at h
      cases hm : reMatch r (c0 :: t) with
      | some p =>
          rw [hm] at h
          obtain ⟨p1, p2⟩ := p
          cases h
          exact ⟨Nat.le_refl _, by simp, by simpa using hm⟩
      | none =>
          rw [hm] at h
          obtain ⟨h1, h2, h3⟩ := ih h
          refine ⟨by omega, by simp; omega, ?_⟩
          obtain ⟨m, hm2⟩ : ∃ m, i - j = m + 1 := ⟨i - j - 1, by omega⟩
          have h5 : i - (j + 1) = m := by omega
          rw [h5] at h3
          rw [hm2, List.drop_succ_cons]
          exact h3

theorem reSearch_inv {r : RE} {s : Str} {i : Nat} {c : Caps} {rem : Str}
    (h : reSearch r s = some (i, c, rem)) :
    i ≤ s.length ∧ reMatch r (s.drop i) = some (c, rem) := by
  obtain ⟨_, h2, h3⟩ := reSearchAux_inv h
  simpa using ⟨h2, h3⟩

/-- A successful case-insensitive literal match consumes exactly the literal,
up to ASCII case. -/
theorem litMatchCI_spec {cs : Str} :
    ∀ {s t : Str}, litMatchCI cs s = some t →
      s = s.take (s.length - t.length) ++ t ∧
      lowerStr (s.take (s.length - t.length)) = lowerStr cs ∧
      s.length = cs.length + t.length := by
  induction cs with
  | nil =>
      intro s t h
      rw [litMatchCI] at h
      cases h
      simp [lowerStr]
  | cons c cs ih =>
      intro s t h
      cases s with
      | nil => simp [litMatchCI] at h
      | cons d s' =>
          rw [litMatchCI] at h
          by_cases hd : asciiLower d = asciiLower c
          · rw [if_pos hd] at h
            obtain ⟨ih1, ih2, ih3⟩ := ih h
            have hlen : (d :: s').length - t.length = (s'.length - t.length) + 1 := by
              simp only [List.length_cons]
              omega
            rw [hlen, List.take_succ_cons]
            refine ⟨?_, ?_, ?_⟩
            · rw [List.cons_append, ← ih1]
            · simp only [lowerStr] at ih2 ⊢
              rw [List.map_cons, List.map_cons, hd, ih2]
            · simp only [List.length_cons]
              omega
          · rw [if_neg hd] at h
            cases h

/-- Captures of a successful anchored `ymRE` match: group 6 (start) is the
first four characters of the subject, which are digits; group 7 (end) is
either four digits or a case variant of the literal `present`. -/
theorem ymRE_captures {s : Str} {caps : Caps} {rem : Str}
    (h : reMatch ymRE s = some (caps, rem)) :
    (capFind caps 6 = some (s.take 4) ∧ (s.take 4).length = 4 ∧
      (s.take 4).all isDigitC = true) ∧
    ∃ e, capFind caps 7 = some e ∧
      ((e.length = 4 ∧ e.all isDigitC = true) ∨ lowerStr e = ("present").data) := by
  have hform : ymRE = RE.seq (RE.grp 6 (RE.rep isDigitC 4 (some 4) false))
      (RE.seq (RE.rep pyIsSpace 0 none false) (RE.seq (RE.cls dashP)
        (RE.seq (RE.rep pyIsSpace 0 none false)
          (RE.seq (RE.grp 7 (RE.alt (RE.rep isDigitC 4 (some 4) false)
            (RE.litCI (("present").data)))) (RE.lit []))))) := rfl
  rw [hform, reMatch, reCore, reCore, reCore] at h
  obtain ⟨n, hmem, hn⟩ := firstSome_some h
  obtain ⟨hlo, hhi4, hhirun⟩ := repKs_mem hmem
  have hn4 : n = 4 := le_antisymm (by simpa using hhi4) hlo
  subst hn4
  have hrun4 : 4 ≤ (s.takeWhile isDigitC).length := hhirun
  have hslen : 4 ≤ s.length := le_trans hrun4 (takeWhile_len_le _ _)
  simp only [List.length_drop] at hn
  have htake : s.length - (s.length - 4) = 4 := by omega
  rw [htake] at hn
  obtain ⟨cf, rf, hk0, hpres6⟩ := reCore_caps hn
  have hcf : cf = caps := congrArg Prod.fst (Option.some.inj hk0)
  have hg6 : capFind caps 6 = some (s.take 4) := by
    have h6 := hpres6 6 (by decide)
    rw [hcf] at h6
    rw [h6]
    simp [capFind]
  have hdig6 : (s.take 4).all isDigitC = true := take_all_of_le_takeWhile hrun4
  have hlen6 : (s.take 4).length = 4 := by
    rw [List.length_take]
    omega
  refine ⟨⟨hg6, hlen6, hdig6⟩, ?_⟩
  rw [reCore, reCore] at hn
  obtain ⟨n1, _, hn1⟩ := firstSome_some hn
  rw [reCore] at hn1
  cases hs2 : ((s.drop 4).drop n1) with
  | nil =>
      rw [hs2, reCore] at hn1
      cases hn1
  | cons d2 t2 =>
      rw [hs2, reCore] at hn1
      by_cases hd2 : dashP d2 = true
      · rw [if_pos hd2] at hn1
        rw [reCore, reCore] at hn1
        obtain ⟨n2, _, hn2⟩ := firstSome_some hn1
        rw [reCore, reCore, reCore] at hn2
        rcases orElse_some hn2 with hL | ⟨_, hR⟩
        · rw [reCore] at hL
          obtain ⟨n3, hmem3, hn3⟩ := firstSome_some hL
          obtain ⟨hlo3, hhi3, hrun3⟩ := repKs_mem hmem3
          have hn34 : n3 = 4 := le_antisymm (by simpa using hhi3) hlo3
          subst hn34
          have hrun3' : 4 ≤ ((t2.drop n2).takeWhile isDigitC).length := hrun3
          have hs4len : 4 ≤ (t2.drop n2).length :=
            le_trans hrun3' (takeWhile_len_le _ _)
          have hs4len' : 4 ≤ t2.length - n2 := by
            rw [List.length_drop] at hs4len
            exact hs4len
          simp only [List.length_drop] at hn3
          have htake3 : t2.length - n2 - (t2.length - n2 - 4) = 4 := by omega
          rw [htake3] at hn3
          obtain ⟨cf2, rf2, hk02, hpres7⟩ := reCore_caps hn3
          have hcf2 : cf2 = caps := congrArg Prod.fst (Option.some.inj hk02)
          refine ⟨(t2.drop n2).take 4, ?_, Or.inl ⟨?_, take_all_of_le_takeWhile hrun3'⟩⟩
          · have h7 := hpres7 7 (by decide)
            rw [hcf2] at h7
            rw [h7]
            simp [capFind]
          · rw [List.length_take]
            omega
        · rw [reCore] at hR
          cases hlit : litMatchCI (("present").data) (t2.drop n2) with
          | none =>
              rw [hlit] at hR
              exact Option.noConfusion hR
          | some t3 =>
              simp only [hlit] at hR
              obtain ⟨_, hlow, _⟩ := litMatchCI_spec hlit
              obtain ⟨cf2, rf2, hk02, hpres7⟩ := reCore_caps hR
              have hcf2 : cf2 = caps := congrArg Prod.fst (Option.some.inj hk02)
              refine ⟨(t2.drop n2).take ((t2.drop n2).length - t3.length), ?_, Or.inr ?_⟩
              · have h7 := hpres7 7 (by decide)
                rw [hcf2] at h7
                rw [h7]
                simp [capFind]
              · rw [hlow]
                decide
      · rw [if_neg hd2] at hn1
        cases hn1

theorem is4Digits_of {e : Str} (hlen : e.length = 4)
    (hdig : e.all isDigitC = true) : is4Digits e = true := by
  obtain ⟨a, b, c, d, rfl⟩ := list_of_len4 hlen
  simp only [List.all_cons, List.all_nil, Bool.and_eq_true, Bool.and_true] at hdig
  simp [is4Digits, hdig.1, hdig.2.1, hdig.2.2.1, hdig.2.2.2]

/-- A successful `sectionRE` match consumes at least one character (in fact
a whole keyword). -/
theorem sectionRE_match_lt {s : Str} {caps : Caps} {rem : Str}
    (h : reMatch sectionRE s = some (caps, rem)) : rem.length < s.length := by
  have hbranch : ∀ cs t : Str, cs ≠ [] → litMatchCI cs s = some t → t.length < s.length := by
    intro cs t hne hl
    obtain ⟨_, _, hlen⟩ := litMatchCI_spec hl
    have hpos : 0 < cs.length := List.length_pos.mpr hne
    omega
  rw [reMatch, sectionRE, reCore] at h
  rcases orElse_some h with h1 | ⟨_, h2⟩
  · rw [reCore] at h1
    cases hl : litMatchCI (("experience").data) s with
    | none => rw [hl] at h1; exact Option.noConfusion h1
    | some t =>
        simp only [hl] at h1
        have ht : t = rem := congrArg Prod.snd (Option.some.inj h1)
        rw [← ht]
        exact hbranch _ t (by decide) hl
  · rw [reCore] at h2
    rcases orElse_some h2 with h3 | ⟨_, h4⟩
    · rw [reCore] at h3
      cases hl : litMatchCI (("education").data) s with
      | none => rw [hl] at h3; exact Option.noConfusion h3
      | some t =>
          simp only [hl] at h3
          have ht : t = rem := congrArg Prod.snd (Option.some.inj h3)
          rw [← ht]
          exact hbranch _ t (by decide) hl
    · rw [reCore] at h4
      cases hl : litMatchCI (("skills").data) s with
      | none => rw [hl] at h4; exact Option.noConfusion h4
      | some t =>
          simp only [hl] at h4
          have ht : t = rem := congrArg Prod.snd (Option.some.inj h4)
          rw [← ht]
          exact hbranch _ t (by decide) hl

/-- Inversion of the first-match-wins pattern loop. -/
theorem tryPatterns_inv {fl : Str} {w : PatKind} {caps : Caps}
    (h : tryPatterns fl = some (w, caps)) :
    (w = PatKind.A → ∃ rem, reMatch patternA fl = some (caps, rem)) ∧
    (w = PatKind.B → ∃ rem, reMatch patternB fl = some (caps, rem)) ∧
    (w = PatKind.C → ∃ rem, reMatch patternC fl = some (caps, rem)) := by
  rw [tryPatterns] at h
  cases hA : reMatch patternA fl with
  | some p =>
      obtain ⟨pc, pr⟩ := p
      simp only [hA] at h
      have hw : PatKind.A = w := congrArg Prod.fst (Option.some.inj h)
      have hcaps : pc = caps := congrArg Prod.snd (Option.some.inj h)
      subst hcaps
      refine ⟨fun _ => ⟨pr, rfl⟩, fun hB => ?_, fun hC => ?_⟩
      · rw [← hw] at hB
        exact absurd hB (by decide)
      · rw [← hw] at hC
        exact absurd hC (by decide)
  | none =>
      simp only [hA] at h
      cases hB : reMatch patternB fl with
      | some p =>
          obtain ⟨pc, pr⟩ := p
          simp only [hB] at h
          have hw : PatKind.B = w := congrArg Prod.fst (Option.some.inj h)
          have hcaps : pc = caps := congrArg Prod.snd (Option.some.inj h)
          subst hcaps
          refine ⟨fun hA2 => ?_, fun _ => ⟨pr, rfl⟩, fun hC => ?_⟩
          · rw [← hw] at hA2
            exact absurd hA2 (by decide)
          · rw [← hw] at hC
            exact absurd hC (by decide)
      | none =>
          simp only [hB] at h
          cases hC : reMatch patternC fl with
          | some p =>
              obtain ⟨pc, pr⟩ := p
              simp only [hC] at h
              have hw : PatKind.C = w := congrArg Prod.fst (Option.some.inj h)
              have hcaps : pc = caps := congrArg Prod.snd (Option.some.inj h)
              subst hcaps
              refine ⟨fun hA2 => ?_, fun hB2 => ?_, fun _ => ⟨pr, rfl⟩⟩
              · rw [← hw] at hA2
                exact absurd hA2 (by decide)
              · rw [← hw] at hB2
                exact absurd hB2 (by decide)
          | none =>
              simp only [hC] at h
              exact Option.noConfusion h

/-! ### Shape of the date-range resolver -/

theorem natOfDigits_foldl_lt {ds : Str} (h : ds.all isDigitC = true) :
    ∀ acc, ds.foldl (fun a c => 10 * a + (c.toNat - 48)) acc <
      (acc + 1) * 10 ^ ds.length := by
  induction ds with
  | nil => intro acc; simp
  | cons c t ih =>
      intro acc
      rw [List.all_cons, Bool.and_eq_true] at h
      rw [List.foldl_cons, List.length_cons]
      have h2 := ih h.2 (10 * acc + (c.toNat - 48))
      have h3 : (10 * acc + (c.toNat - 48) + 1) * 10 ^ t.length ≤
          ((acc + 1) * 10) * 10 ^ t.length := by
        apply Nat.mul_le_mul_right
        have h1 := h.1
        simp only [isDigitC, Bool.and_eq_true, decide_eq_true_eq] at h1
        omega
      have h4 : ((acc + 1) * 10) * 10 ^ t.length = (acc + 1) * 10 ^ (t.length + 1) := by
        rw [Nat.pow_succ, Nat.mul_assoc, Nat.mul_comm 10 (10 ^ t.length)]
      exact Nat.lt_of_lt_of_le h2 (h4 ▸ h3)

theorem natOfDigits_lt4 {ds : Str} (hlen : ds.length = 4)
    (hdig : ds.all isDigitC = true) : natOfDigits ds ≤ 9999 := by
  have h := natOfDigits_foldl_lt hdig 0
  rw [hlen] at h
  have h2 : natOfDigits ds < 10000 := by simpa [natOfDigits] using h
  omega

theorem monthsGet_le (key : Str) (d : Nat) :
    ∀ t : List (Str × Nat), d ≤ 12 → (∀ p ∈ t, p.2 ≤ 12) →
      monthsGet key d t ≤ 12 := by
  intro t
  induction t with
  | nil => intro hd _; simpa [monthsGet] using hd
  | cons p rest ih =>
      intro hd hall
      obtain ⟨k, v⟩ := p
      rw [monthsGet]
      by_cases hk : k = key
      · rw [if_pos hk]
        exact hall (k, v) (by simp)
      · rw [if_neg hk]
        exact ih hd (fun q hq => hall q (by simp [hq]))

theorem MONTHS_le : ∀ p ∈ MONTHS, p.2 ≤ 12 := by decide

theorem find4Digits_spec {x ds : Str} (h : find4Digits x = some ds) :
    ds.length = 4 ∧ ds.all isDigitC = true := by
  induction x with
  | nil => simp [find4Digits] at h
  | cons c t ih =>
      rw [find4Digits] at h
      by_cases hx : ((c :: t).take 4).length = 4 ∧ ((c :: t).take 4).all isDigitC = true
      · rw [if_pos hx] at h
        cases h
        exact hx
      · rw [if_neg hx] at h
        exact ih h

theorem monthYearAt_spec {s : Str} {mo yr : Str}
    (h : monthYearAt s = some (mo, yr)) : yr.length = 4 ∧ yr.all isDigitC = true := by
  obtain ⟨n, _, hn⟩ := firstSome_some h
  by_cases h1 : (s.take n).length = n ∧ (s.take n).all isAlphaC = true
  · rw [if_pos h1] at hn
    set rest := s.drop n with hrest
    set sp := rest.takeWhile pyIsSpace with hsp
    by_cases h2 : sp ≠ [] ∧ ((rest.drop sp.length).take 4).length = 4 ∧
        ((rest.drop sp.length).take 4).all isDigitC = true
    · rw [if_pos h2] at hn
      cases hn
      exact h2.2
    · rw [if_neg h2] at hn
      cases hn
  · rw [if_neg h1] at hn
    cases hn

theorem findMonthYear_spec {x : Str} {mo yr : Str}
    (h : findMonthYear x = some (mo, yr)) :
    yr.length = 4 ∧ yr.all isDigitC = true := by
  induction x with
  | nil => simp [findMonthYear] at h
  | cons c t ih =>
      rw [findMonthYear] at h
      cases hat : monthYearAt (c :: t) with
      | some r =>
          rw [hat] at h
          cases h
          exact monthYearAt_spec hat
      | none =>
          rw [hat] at h
          exact ih h

theorem iso_ym_fallback_shape {yr mo : Str} (hlen : yr.length = 4)
    (hdig : yr.all isDigitC = true) :
    isYYYYMM (iso_ym_fallback yr (some mo)) = true := by
  rw [iso_ym_fallback]
  have hfilter : yr.filter isDigitC = yr := List.filter_eq_self.mpr (by
    intro a ha
    exact List.all_eq_true.mp hdig a ha)
  rw [hfilter]
  have hne : yr ≠ [] := by
    intro h
    rw [h] at hlen
    simp at hlen
  rw [if_neg hne]
  exact fmtYM_shape (natOfDigits_lt4 hlen hdig)
    (le_trans (monthsGet_le _ 1 MONTHS (by omega) MONTHS_le) (by omega))

/-- The fallback chain of `parse_one` only produces the empty string or a
`YYYY-MM` value, provided the oracle returns calendar dates whose year has
at most four digits. -/
theorem parse_one_shape (dp : DateOracle)
    (hdp : ∀ u y m, dp u = some (y, m) → y ≤ 9999 ∧ 1 ≤ m ∧ m ≤ 12)
    (x : Str) : parse_one dp x = [] ∨ isYYYYMM (parse_one dp x) = true := by
  by_cases hx : x = []
  · exact Or.inl (by rw [parse_one, if_pos hx])
  · by_cases hpres : (substrCI (("present").data) x || substrCI (("now").data) x ||
        substrCI (("current").data) x) = true
    · exact Or.inl (by rw [parse_one, if_neg hx, if_pos hpres])
    · cases hdpx : dp x with
      | some ym =>
          obtain ⟨y, m⟩ := ym
          obtain ⟨hy, hm1, hm2⟩ := hdp x y m hdpx
          have hval : parse_one dp x = fmtYM y m := by
            rw [parse_one, if_neg hx, if_neg hpres, hdpx]
          rw [hval]
          exact Or.inr (fmtYM_shape hy (by omega))
      | none =>
          cases h4 : find4Digits x with
          | some ds =>
              obtain ⟨hlen, hdig⟩ := find4Digits_spec h4
              have hval : parse_one dp x = fmtYM (natOfDigits ds) 1 := by
                rw [parse_one, if_neg hx, if_neg hpres, hdpx, h4]
                rfl
              rw [hval]
              exact Or.inr (fmtYM_shape (natOfDigits_lt4 hlen hdig) (by omega))
          | none =>
              cases hmy : findMonthYear x with
              | some r =>
                  obtain ⟨mo, yr⟩ := r
                  obtain ⟨hlen, hdig⟩ := findMonthYear_spec hmy
                  have hval : parse_one dp x = iso_ym_fallback yr (some mo) := by
                    rw [parse_one, if_neg hx, if_neg hpres, hdpx, h4, hmy]
                  rw [hval]
                  exact Or.inr (iso_ym_fallback_shape hlen hdig)
              | none =>
                  exact Or.inl (by rw [parse_one, if_neg hx, if_neg hpres, hdpx, h4, hmy])

/-- Shape of both components of `parse_date_range`. -/
theorem parse_date_range_shape (dp : DateOracle)
    (hdp : ∀ u y m, dp u = some (y, m) → y ≤ 9999 ∧ 1 ≤ m ∧ m ≤ 12)
    (s : Str) :
    ((parse_date_range dp s).1 = [] ∨ isYYYYMM (parse_date_range dp s).1 = true) ∧
    ((parse_date_range dp s).2 = [] ∨ isYYYYMM (parse_date_range dp s).2 = true) := by
  rw [parse_date_range]
  by_cases hs : s = []
  · rw [if_pos hs]
    exact ⟨Or.inl rfl, Or.inl rfl⟩
  · rw [if_neg hs]
    exact ⟨parse_one_shape dp hdp _, parse_one_shape dp hdp _⟩

/-! ### Lemmas on the skill-aggregation dedup -/

theorem dedupSkillsAux_mem_key {l : List Str} :
    ∀ seen x, x ∈ dedupSkillsAux seen l → lowerStr x ∉ seen := by
  induction l with
  | nil => intro seen x hx; simp [dedupSkillsAux] at hx
  | cons s rest ih =>
      intro seen x hx
      rw [dedupSkillsAux] at hx
      by_cases hks : lowerStr (stripStr s) ≠ [] ∧ lowerStr (stripStr s) ∉ seen
      · rw [if_pos hks] at hx
        rcases List.mem_cons.mp hx with rfl | hx2
        · exact hks.2
        · intro hmem
          exact ih (lowerStr (stripStr s) :: seen) x hx2 (by simp [hmem])
      · rw [if_neg hks] at hx
        exact ih seen x hx

theorem dedupSkillsAux_pairwise {l : List Str} :
    ∀ seen, (dedupSkillsAux seen l).Pairwise (fun a b => lowerStr a ≠ lowerStr b) := by
  induction l with
  | nil => intro seen; simp [dedupSkillsAux]
  | cons s rest ih =>
      intro seen
      rw [dedupSkillsAux]
      by_cases hks : lowerStr (stripStr s) ≠ [] ∧ lowerStr (stripStr s) ∉ seen
      · rw [if_pos hks]
        refine List.Pairwise.cons ?_ (ih _)
        intro x hx heq
        have := dedupSkillsAux_mem_key _ x hx
        exact this (by simp [heq])
      · rw [if_neg hks]
        exact ih seen

theorem dedupSkillsAux_sublist {l : List Str} :
    ∀ seen, List.Sublist (dedupSkillsAux seen l) (l.map stripStr) := by
  induction l with
  | nil => intro seen; simp [dedupSkillsAux]
  | cons s rest ih =>
      intro seen
      rw [dedupSkillsAux, List.map_cons]
      by_cases hks : lowerStr (stripStr s) ≠ [] ∧ lowerStr (stripStr s) ∉ seen
      · rw [if_pos hks]
        exact List.Sublist.cons₂ _ (ih _)
      · rw [if_neg hks]
        exact List.Sublist.cons _ (ih seen)

theorem dedupSkillsAux_find {l : List Str} {k : Str} (hk : k ≠ []) :
    ∀ seen, List.find? (fun x => lowerStr x == k) (dedupSkillsAux seen l) =
      if k ∈ seen then none
      else (List.find? (fun s => lowerStr (stripStr s) == k) l).map stripStr := by
  induction l with
  | nil =>
      intro seen
      by_cases hks : k ∈ seen <;> simp [dedupSkillsAux, hks]
  | cons s rest ih =>
      intro seen
      rw [dedupSkillsAux]
      by_cases hkeep : lowerStr (stripStr s) ≠ [] ∧ lowerStr (stripStr s) ∉ seen
      · rw [if_pos hkeep]
        by_cases heq : lowerStr (stripStr s) = k
        · have hkseen : k ∉ seen := heq ▸ hkeep.2
          rw [List.find?_cons_of_pos _ (by simp [heq]), if_neg hkseen,
            List.find?_cons_of_pos _ (by simp [heq])]
          simp
        · rw [List.find?_cons_of_neg _ (by simp [heq]), ih,
            List.find?_cons_of_neg _ (by simp [heq])]
          by_cases hkseen : k ∈ seen
          · rw [if_pos (by simp [hkseen]), if_pos hkseen]
          · rw [if_neg (by simp [hkseen, Ne.symm heq]), if_neg hkseen]
      · rw [if_neg hkeep, ih]
        rcases not_and_or.mp hkeep with hempty | hseen
        · have hkse : lowerStr (stripStr s) = [] := not_not.mp hempty
          have hne : lowerStr (stripStr s) ≠ k := by
            rw [hkse]
            exact fun h => hk h.symm
          rw [List.find?_cons_of_neg _ (by simp [hne])]
        · have hseen' : lowerStr (stripStr s) ∈ seen := not_not.mp hseen
          by_cases heq : lowerStr (stripStr s) = k
          · rw [if_pos (heq ▸ hseen')]
            rw [if_pos (heq ▸ hseen')]
          · rw [List.find?_cons_of_neg _ (by simp [heq])]

/-! ### Lemmas on the canonical skill normalizer -/

theorem CANONICAL_SKILLS_ne_nil : ∀ c ∈ CANONICAL_SKILLS, c ≠ [] := by decide

theorem normOneSkill_fixed {sim : SimOracle}
    (Hmem : ∀ q m sc, sim q CANONICAL_SKILLS = some (m, sc) → m ∈ CANONICAL_SKILLS)
    (Hself : ∀ c ∈ CANONICAL_SKILLS, sim c CANONICAL_SKILLS = some (c, 100))
    (s : Str) :
    normOneSkill sim (normOneSkill sim s) = normOneSkill sim s ∧
      (s ≠ [] → normOneSkill sim s ≠ []) := by
  cases hs : sim s CANONICAL_SKILLS with
  | none =>
      have hval : normOneSkill sim s = s := by rw [normOneSkill, hs]
      rw [hval]
      exact ⟨hval, fun h => h⟩
  | some p =>
      obtain ⟨m, sc⟩ := p
      by_cases hsc : (85 : ℚ) ≤ sc
      · have hval : normOneSkill sim s = m := by
          rw [normOneSkill, hs]
          show (if (85 : ℚ) ≤ sc then m else s) = m
          rw [if_pos hsc]
        have hmem := Hmem s m sc hs
        have hm := Hself m hmem
        have hval2 : normOneSkill sim m = m := by
          rw [normOneSkill, hm]
          show (if (85 : ℚ) ≤ 100 then m else m) = m
          rw [ite_self]
        rw [hval]
        exact ⟨hval2, fun _ => CANONICAL_SKILLS_ne_nil m hmem⟩
      · have hval : normOneSkill sim s = s := by
          rw [normOneSkill, hs]
          show (if (85 : ℚ) ≤ sc then m else s) = s
          rw [if_neg hsc]
        rw [hval]
        exact ⟨hval, fun h => h⟩

theorem normSkillsAux_mem {sim : SimOracle}
    (Hmem : ∀ q m sc, sim q CANONICAL_SKILLS = some (m, sc) → m ∈ CANONICAL_SKILLS)
    (Hself : ∀ c ∈ CANONICAL_SKILLS, sim c CANONICAL_SKILLS = some (c, 100)) :
    ∀ (l : List Str) (seen : List Str), ∀ e ∈ normSkillsAux sim seen l,
      normOneSkill sim e = e ∧ e ≠ [] ∧ lowerStr e ∉ seen := by
  intro l
  induction l with
  | nil => intro seen e he; simp [normSkillsAux] at he
  | cons s rest ih =>
      intro seen e he
      rw [normSkillsAux] at he
      by_cases hs : s = []
      · rw [if_pos hs] at he
        exact ih seen e he
      · rw [if_neg hs] at he
        by_cases hseen : lowerStr (normOneSkill sim s) ∈ seen
        · rw [if_pos hseen] at he
          exact ih seen e he
        · rw [if_neg hseen] at he
          rcases List.mem_cons.mp he with rfl | he2
          · exact ⟨(normOneSkill_fixed Hmem Hself s).1,
              (normOneSkill_fixed Hmem Hself s).2 hs, hseen⟩
          · obtain ⟨h1, h2, h3⟩ := ih _ e he2
            exact ⟨h1, h2, fun hmem => h3 (by simp [hmem])⟩

theorem normSkillsAux_pairwise {sim : SimOracle} :
    ∀ (l : List Str) (seen : List Str),
      (normSkillsAux sim seen l).Pairwise (fun a b => lowerStr a ≠ lowerStr b) ∧
      (∀ e ∈ normSkillsAux sim seen l, lowerStr e ∉ seen) := by
  intro l
  induction l with
  | nil => intro seen; simp [normSkillsAux]
  | cons s rest ih =>
      intro seen
      rw [normSkillsAux]
      by_cases hs : s = []
      · rw [if_pos hs]
        exact ih seen
      · rw [if_neg hs]
        by_cases hseen : lowerStr (normOneSkill sim s) ∈ seen
        · rw [if_pos hseen]
          exact ih seen
        · rw [if_neg hseen]
          obtain ⟨hpw, hmem⟩ := ih (lowerStr (normOneSkill sim s) :: seen)
          refine ⟨List.Pairwise.cons ?_ hpw, ?_⟩
          · intro x hx heq
            exact hmem x hx (by simp [heq])
          · intro e he
            rcases List.mem_cons.mp he with rfl | he2
            · exact hseen
            · intro hmem2
              exact hmem e he2 (by simp [hmem2])

theorem normSkillsAux_id {sim : SimOracle} :
    ∀ (l : List Str) (seen : List Str),
      (∀ e ∈ l, normOneSkill sim e = e ∧ e ≠ [] ∧ lowerStr e ∉ seen) →
      l.Pairwise (fun a b => lowerStr a ≠ lowerStr b) →
      normSkillsAux sim seen l = l := by
  intro l
  induction l with
  | nil => intro seen _ _; rfl
  | cons e rest ih =>
      intro seen hall hpw
      obtain ⟨h1, h2, h3⟩ := hall e (by simp)
      rw [normSkillsAux, if_neg h2, h1, if_neg h3]
      congr 1
      apply ih
      · intro x hx
        obtain ⟨g1, g2, g3⟩ := hall x (by simp [hx])
        refine ⟨g1, g2, ?_⟩
        intro hmem
        rcases List.mem_cons.mp hmem with heq | hmem2
        · exact (List.pairwise_cons.mp hpw).1 x hx heq.symm
        · exact g3 hmem2
      · exact (List.pairwise_cons.mp hpw).2

/-- Idempotence of `normalize_skills`, given a similarity oracle that maps
vocabulary members to themselves with the maximal score and only returns
vocabulary members as matches. -/
theorem normalize_skills_idem {sim : SimOracle}
    (Hmem : ∀ q m sc, sim q CANONICAL_SKILLS = some (m, sc) → m ∈ CANONICAL_SKILLS)
    (Hself : ∀ c ∈ CANONICAL_SKILLS, sim c CANONICAL_SKILLS = some (c, 100))
    (xs : List Str) :
    normalize_skills sim (normalize_skills sim xs) = normalize_skills sim xs := by
  apply normSkillsAux_id
  · intro e he
    obtain ⟨h1, h2, _⟩ := normSkillsAux_mem Hmem Hself xs [] e he
    exact ⟨h1, h2, by simp⟩
  · exact (normSkillsAux_pairwise xs []).1

/-! ### The claims -/

/-- C1: extract_structured_profile is total: for every input text (the
embedding returns `none` exactly where Python raises) it returns a Profile
record, whose type carries the four top-level fields summary, experience,
education and skills; on empty input (given that the entity oracle has no
entities in the empty string, as spaCy does) every field is the empty
string or the empty list. -/
theorem c1_total_and_empty (dp : DateOracle) (ents : EntOracle) (sim : SimOracle)
    (hents : ents [] = []) :
    (∀ text : Str, ∃ prof : Sections,
      extract_structured_profile dp ents sim text = some prof) ∧
    extract_structured_profile dp ents sim [] = some ⟨[], [], [], []⟩ := by
  constructor
  · intro text
    obtain ⟨p, hp⟩ := Option.isSome_iff_exists.mp (extract_isSome dp ents sim text)
    exact ⟨p, hp⟩
  · have hsplit : split_sections dp [] = some ⟨[], [], [], []⟩ := rfl
    rw [extract_structured_profile, hsplit, Option.map_some']
    simp only [normalize_structured, List.map_nil, collect_skills]
    have hjs : joinSpace [([] : Str)] = ([] : Str) := rfl
    rw [hjs, hents]
    rfl

/-- C1 witness: the empty-input instance at concrete oracles. -/
theorem c1_total_and_empty_witness :
    extract_structured_profile dpNone entsNone simExact [] = some ⟨[], [], [], []⟩ :=
  (c1_total_and_empty dpNone entsNone simExact rfl).2

/-- C4: parse_date_range splits the stripped span at the first DATE_SEP
match into a left and an optional right side and resolves each side
independently with the parse_one chain; provided the oracle returns years
of at most four digits and calendar months, each component of the result is
either empty or matches YYYY-MM, and the function is total. -/
theorem c4_date_range_chain (dp : DateOracle)
    (hdp : ∀ u y m, dp u = some (y, m) → y ≤ 9999 ∧ 1 ≤ m ∧ m ≤ 12) (s : Str) :
    (s ≠ [] → parse_date_range dp s =
      (parse_one dp (searchSplit1 dateSepRE (stripStr s)).1,
       parse_one dp ((searchSplit1 dateSepRE (stripStr s)).2.getD []))) ∧
    ((parse_date_range dp s).1 = [] ∨ isYYYYMM (parse_date_range dp s).1 = true) ∧
    ((parse_date_range dp s).2 = [] ∨ isYYYYMM (parse_date_range dp s).2 = true) := by
  refine ⟨?_, (parse_date_range_shape dp hdp s).1, (parse_date_range_shape dp hdp s).2⟩
  intro hs
  rw [parse_date_range, if_neg hs]

/-- C4 witness: a concrete span through the chain with a failing oracle. -/
theorem c4_date_range_chain_witness :
    parse_date_range dpNone (("Jan 2021 - Present").data) = (("2021-01").data, []) ∧
    ((parse_date_range dpNone (("Jan 2021 - Present").data)).1 = [] ∨
      isYYYYMM (parse_date_range dpNone (("Jan 2021 - Present").data)).1 = true) := by
  constructor
  · decide
  · exact (c4_date_range_chain dpNone (fun u y m h => Option.noConfusion h) _).2.1

/-- C5: the skill aggregator dedup (the seen/dedup loop of
_normalize_structured) produces a list with no two case-insensitively equal
entries, keeps stripped entries in first-occurrence order (a sublist of the
stripped input), and for each non-empty key keeps exactly the stripped
first occurrence of that key (first-seen casing); in particular
["Python","python","PYTHON"] contributes exactly one entry, "Python". -/
theorem c5_dedup_invariant (l : List Str) :
    (dedupSkills l).Pairwise (fun a b => lowerStr a ≠ lowerStr b) ∧
    List.Sublist (dedupSkills l) (l.map stripStr) ∧
    (∀ k : Str, k ≠ [] →
      List.find? (fun x => lowerStr x == k) (dedupSkills l) =
        (List.find? (fun s => lowerStr (stripStr s) == k) l).map stripStr) ∧
    dedupSkills [("Python").data, ("python").data, ("PYTHON").data] =
      [("Python").data] := by
  refine ⟨dedupSkillsAux_pairwise [], dedupSkillsAux_sublist [], ?_, by decide⟩
  intro k hk
  have h := dedupSkillsAux_find (l := l) hk []
  simpa using h

/-- C5 witness: first-seen casing on the duplicate-casing example. -/
theorem c5_dedup_invariant_witness :
    List.find? (fun x => lowerStr x == ("python").data)
      (dedupSkills [("Python").data, ("python").data, ("PYTHON").data]) =
      (List.find? (fun s => lowerStr (stripStr s) == ("python").data)
        [("Python").data, ("python").data, ("PYTHON").data]).map stripStr :=
  (c5_dedup_invariant [("Python").data, ("python").data, ("PYTHON").data]).2.2.1
    (("python").data) (by decide)

/-- C6: the canonical normalizer is idempotent: a string the similarity
oracle scores maximally against itself is returned unchanged by
normalize_job_title and by normalize_skills on a singleton, and applying
normalize_skills twice yields the same list as applying it once (given the
oracle maps vocabulary entries to themselves with the maximal score and
only returns vocabulary entries as matches). -/
theorem c6_normalizer_idempotent (sim : SimOracle)
    (Hmem : ∀ q m sc, sim q CANONICAL_SKILLS = some (m, sc) → m ∈ CANONICAL_SKILLS)
    (Hself : ∀ c ∈ CANONICAL_SKILLS, sim c CANONICAL_SKILLS = some (c, 100)) :
    (∀ s : Str, sim s CANONICAL_TITLES = some (s, 100) →
      normalize_job_title sim s = s) ∧
    (∀ s ∈ CANONICAL_SKILLS, normalize_skills sim [s] = [s]) ∧
    (∀ xs : List Str,
      normalize_skills sim (normalize_skills sim xs) = normalize_skills sim xs) := by
  refine ⟨?_, ?_, normalize_skills_idem Hmem Hself⟩
  · intro s hs
    by_cases hraw : s = []
    · rw [normalize_job_title, if_pos hraw]
    · rw [normalize_job_title, if_neg hraw, hs]
      show (if (80 : ℚ) ≤ 100 then s else s) = s
      rw [ite_self]
  · intro s hsmem
    have hs := Hself s hsmem
    have hne : s ≠ [] := CANONICAL_SKILLS_ne_nil s hsmem
    have hnorm : normOneSkill sim s = s := by
      rw [normOneSkill, hs]
      show (if (85 : ℚ) ≤ 100 then s else s) = s
      rw [ite_self]
    show normSkillsAux sim [] [s] = [s]
    rw [normSkillsAux, if_neg hne, hnorm]
    rw [if_neg (by simp)]
    rfl

/-- C6 witness: double application at the exact-match oracle. -/
theorem c6_normalizer_idempotent_witness :
    normalize_skills simExact (normalize_skills simExact
      [("PYTHON").data, ("Docker").data]) =
      normalize_skills simExact [("PYTHON").data, ("Docker").data] := by
  have Hmem : ∀ q m sc, simExact q CANONICAL_SKILLS = some (m, sc) →
      m ∈ CANONICAL_SKILLS := by
    intro q m sc h
    simp only [simExact] at h
    by_cases hq : q ∈ CANONICAL_SKILLS
    · rw [if_pos hq] at h
      have hm : q = m := congrArg Prod.fst (Option.some.inj h)
      rw [← hm]
      exact hq
    · rw [if_neg hq] at h
      exact Option.noConfusion h
  have Hself : ∀ c ∈ CANONICAL_SKILLS, simExact c CANONICAL_SKILLS = some (c, 100) := by
    intro c hc
    simp only [simExact]
    rw [if_pos hc]
  exact (c6_normalizer_idempotent simExact Hmem Hself).2.2
    [("PYTHON").data, ("Docker").data]

/-- C7 counterexample: the already-ISO-shaped span "2021-01 - 2022-03" is
split at the first dash, the one inside "2021-01", so with the fallback
chain (oracle failing, as the claim's Month-table-fallback reading assumes)
the result is ("2021-01","2022-01") and not the claimed
("2021-01","2022-03"). -/
theorem c7_counterexample :
    parse_date_range dpNone (("2021-01 - 2022-03").data) =
      (("2021-01").data, ("2022-01").data) ∧
    parse_date_range dpNone (("2021-01 - 2022-03").data) ≠
      (("2021-01").data, ("2022-03").data) := by decide

/-- C7 amended: DATE_SEP splits "2021-01 - 2022-03" at the first hyphen,
into "2021" and "01 - 2022-03"; resolving through the fallback chain yields
("2021-01","2022-01"). -/
theorem c7_amended :
    searchSplit1 dateSepRE (stripStr (("2021-01 - 2022-03").data)) =
      (("2021").data, some (("01 - 2022-03").data)) ∧
    parse_date_range dpNone (("2021-01 - 2022-03").data) =
      (("2021-01").data, ("2022-01").data) := by decide

/-- C3 counterexample: the header line "X at  (2020)" (two spaces after
`at`) is matched by pattern (a), yet the stored company is empty — the
captured company group is a single space, which is stripped away — refuting
the claim that a pattern match guarantees a non-empty company. -/
theorem c3_counterexample :
    (tryPatterns (("X at  (2020)").data)).map Prod.fst = some PatKind.A ∧
    (parse_experience_block dpNone (("X at  (2020)").data)).map
      ExperienceItem.company = some [] := by decide

/-- C3 amended: when the first non-blank line of a block matches one of the
three header patterns (tried in order, first match wins),
parse_experience_block succeeds; title and company are the trimmed captured
groups — so the group anchored at the start of the line (title for (a) and
(c), company for (b)) is non-empty, while the other may be empty when its
captured group is all-whitespace — and start_date/end_date are each either
empty or of the shape YYYY-MM (the oracle returning calendar dates with at
most 4-digit years). -/
theorem c3_amended (dp : DateOracle)
    (hdp : ∀ u y m, dp u = some (y, m) → y ≤ 9999 ∧ 1 ≤ m ∧ m ≤ 12)
    (block : Str) (hb : block ≠ []) (fl : Str) (rls : List Str)
    (hlines : ((splitlinesPy block).map stripStr).filter (fun l => l ≠ []) = fl :: rls)
    (w : PatKind) (caps : Caps) (htry : tryPatterns fl = some (w, caps)) :
    ∃ item, parse_experience_block dp block = some item ∧
      item.title = stripStr (capGet caps 1) ∧
      item.company = stripStr (capGet caps 2) ∧
      (item.start_date = [] ∨ isYYYYMM item.start_date = true) ∧
      (item.end_date = [] ∨ isYYYYMM item.end_date = true) ∧
      ((w = PatKind.A ∨ w = PatKind.C) → item.title ≠ []) ∧
      (w = PatKind.B → item.company ≠ []) := by
  have heq : parse_experience_block dp block = some
      ⟨stripStr (capGet caps 1), stripStr (capGet caps 2),
       (parse_date_range dp (capGet caps 3)).1,
       (parse_date_range dp (capGet caps 3)).2,
       (match reSearch locTailRE (capGet caps 4) with
        | some (_, c2, _) => stripStr (capGet c2 5)
        | none => []),
       stripStr (joinSpace
         (((if capGet caps 4 ≠ [] ∧ reSearch locTailRE (capGet caps 4) = none
              then [stripStr (capGet caps 4)] else []) ++
           (if rls ≠ [] then [joinSpace rls] else [])).filter
           (fun d => d ≠ [])))⟩ := by
    rw [parse_experience_block, if_neg hb, hlines]
    simp only [htry]
  obtain ⟨cfl, tfl, hflcons⟩ : ∃ c t, fl = c :: t := by
    have hmem : fl ∈ ((splitlinesPy block).map stripStr).filter (fun l => l ≠ []) := by
      rw [hlines]
      simp
    have hne : fl ≠ [] := by
      have := (List.mem_filter.mp hmem).2
      simpa using this
    cases hfl : fl with
    | nil => exact absurd hfl hne
    | cons a b => exact ⟨a, b, rfl⟩
  have hflraw : ∃ raw, fl = stripStr raw := by
    have hmem : fl ∈ ((splitlinesPy block).map stripStr).filter (fun l => l ≠ []) := by
      rw [hlines]
      simp
    obtain ⟨raw, _, hraw⟩ := List.mem_map.mp (List.mem_filter.mp hmem).1
    exact ⟨raw, hraw.symm⟩
  have hch : pyIsSpace cfl = false := by
    obtain ⟨raw, hraw⟩ := hflraw
    rw [hflcons] at hraw
    exact stripStr_head_not_space hraw.symm
  obtain ⟨hA, hB, hC⟩ := tryPatterns_inv htry
  refine ⟨_, heq, rfl, rfl,
    (parse_date_range_shape dp hdp _).1, (parse_date_range_shape dp hdp _).2, ?_, ?_⟩
  · rintro (rfl | rfl)
    · obtain ⟨rem, hm⟩ := hA rfl
      obtain ⟨n, hn1, _, hcap⟩ := reMatch_head_grp (g := 1) (p := dotP) hm (by decide)
      show stripStr (capGet caps 1) ≠ []
      rw [capGet, hcap, Option.getD_some, hflcons]
      exact stripStr_take_ne_nil hch hn1
    · obtain ⟨rem, hm⟩ := hC rfl
      obtain ⟨n, hn1, _, hcap⟩ := reMatch_head_grp (g := 1) (p := dotP) hm (by decide)
      show stripStr (capGet caps 1) ≠ []
      rw [capGet, hcap, Option.getD_some, hflcons]
      exact stripStr_take_ne_nil hch hn1
  · rintro rfl
    obtain ⟨rem, hm⟩ := hB rfl
    obtain ⟨n, hn1, _, hcap⟩ := reMatch_head_grp (g := 2) (p := dotP) hm (by decide)
    show stripStr (capGet caps 2) ≠ []
    rw [capGet, hcap, Option.getD_some, hflcons]
    exact stripStr_take_ne_nil hch hn1

/-- C3 amended witness: the canonical header line via pattern (a). -/
theorem c3_amended_witness :
    ∃ item, parse_experience_block dpNone
        (("Engineer at ACME (2019 - 2020)").data) = some item ∧
      item.title = stripStr (capGet
        ((tryPatterns (("Engineer at ACME (2019 - 2020)").data)).get (by decide)).2 1) ∧
      item.company = stripStr (capGet
        ((tryPatterns (("Engineer at ACME (2019 - 2020)").data)).get (by decide)).2 2) ∧
      (item.start_date = [] ∨ isYYYYMM item.start_date = true) ∧
      (item.end_date = [] ∨ isYYYYMM item.end_date = true) ∧
      ((((tryPatterns (("Engineer at ACME (2019 - 2020)").data)).get (by decide)).1 =
          PatKind.A ∨
        (((tryPatterns (("Engineer at ACME (2019 - 2020)").data)).get (by decide)).1 =
          PatKind.C)) → item.title ≠ []) ∧
      ((((tryPatterns (("Engineer at ACME (2019 - 2020)").data)).get (by decide)).1 =
          PatKind.B) → item.company ≠ []) :=
  c3_amended dpNone (fun u y m h => Option.noConfusion h)
    (("Engineer at ACME (2019 - 2020)").data) (by decide)
    (("Engineer at ACME (2019 - 2020)").data) [] (by decide)
    PatKind.A
    ((tryPatterns (("Engineer at ACME (2019 - 2020)").data)).get (by decide)).2
    (by decide)

/-- C8: the education line parser never fails and follows the pattern
School – Degree[, Field][(Years)]: on a match, school/degree/field are the
trimmed captured groups; a Years fragment of the form start–end sets
start_year to the 4-digit start and end_year to the 4-digit end, except
that a case variant of the literal end 'present' maps to an empty
end_year; on no match the entire line becomes school and every other field
stays empty. -/
theorem c8_education_line (line : Str) :
    (reMatch eduRE line = none →
      parseEducationLine line = ⟨line, [], [], [], []⟩) ∧
    (∀ caps rem, reMatch eduRE line = some (caps, rem) →
      (parseEducationLine line).school = stripStr (capGet caps 1) ∧
      (parseEducationLine line).degree = stripStr (capGet caps 2) ∧
      (parseEducationLine line).field = stripStr (capGet caps 3) ∧
      (reSearch ymRE (stripStr (capGet caps 4)) = none →
        (parseEducationLine line).start_year = [] ∧
        (parseEducationLine line).end_year = []) ∧
      (∀ i c2 rem2,
        reSearch ymRE (stripStr (capGet caps 4)) = some (i, c2, rem2) →
        (parseEducationLine line).start_year = capGet c2 6 ∧
        is4Digits (parseEducationLine line).start_year = true ∧
        (lowerStr (capGet c2 7) = ("present").data →
          (parseEducationLine line).end_year = []) ∧
        (lowerStr (capGet c2 7) ≠ ("present").data →
          (parseEducationLine line).end_year = capGet c2 7 ∧
          is4Digits (parseEducationLine line).end_year = true))) := by
  constructor
  · intro hnone
    rw [parseEducationLine, hnone]
  · intro caps rem hsome
    have heq : parseEducationLine line =
        ⟨stripStr (capGet caps 1), stripStr (capGet caps 2), stripStr (capGet caps 3),
         (match reSearch ymRE (stripStr (capGet caps 4)) with
          | some (_, c2, _) => ((capGet c2 6 : Str),
              if lowerStr (capGet c2 7) = ("present").data then ([] : Str)
              else capGet c2 7)
          | none => (([] : Str), ([] : Str))).1,
         (match reSearch ymRE (stripStr (capGet caps 4)) with
          | some (_, c2, _) => ((capGet c2 6 : Str),
              if lowerStr (capGet c2 7) = ("present").data then ([] : Str)
              else capGet c2 7)
          | none => (([] : Str), ([] : Str))).2⟩ := by
      rw [parseEducationLine, hsome]
    refine ⟨by rw [heq], by rw [heq], by rw [heq], ?_, ?_⟩
    · intro hym
      rw [heq]
      simp only [hym]
      exact ⟨trivial, trivial⟩
    · intro i c2 rem2 hym
      obtain ⟨_, hmatch⟩ := reSearch_inv hym
      obtain ⟨⟨hcap6, hlen6, hdig6⟩, e7, hcap7, he7⟩ := ymRE_captures hmatch
      have hget6 : capGet c2 6 = ((stripStr (capGet caps 4)).drop i).take 4 := by
        rw [capGet, hcap6, Option.getD_some]
      have hget7 : capGet c2 7 = e7 := by
        rw [capGet, hcap7, Option.getD_some]
      rw [heq]
      simp only [hym]
      refine ⟨trivial, ?_, ?_, ?_⟩
      · rw [hget6]
        exact is4Digits_of hlen6 hdig6
      · intro hpres
        rw [if_pos hpres]
      · intro hpres
        rw [if_neg hpres]
        refine ⟨rfl, ?_⟩
        rw [hget7]
        rcases he7 with ⟨hl, hd⟩ | hp
        · exact is4Digits_of hl hd
        · rw [hget7] at hpres
          exact absurd hp hpres

/-- C8 witness: the scenario's education line through the match case. -/
theorem c8_education_line_witness :
    (parseEducationLine c8line).school =
      stripStr (capGet ((reMatch eduRE c8line).get (by decide)).1 1) ∧
    (parseEducationLine c8line).degree =
      stripStr (capGet ((reMatch eduRE c8line).get (by decide)).1 2) :=
  ⟨((c8_education_line c8line).2 ((reMatch eduRE c8line).get (by decide)).1
      ((reMatch eduRE c8line).get (by decide)).2 (by decide)).1,
   ((c8_education_line c8line).2 ((reMatch eduRE c8line).get (by decide)).1
      ((reMatch eduRE c8line).get (by decide)).2 (by decide)).2.1⟩

set_option maxRecDepth 1000000 in
/-- C2 counterexample: on the end-to-end scenario input the pipeline's
summary is "Summary\nML Engineer." — `re.split` keeps everything before the
first section keyword, including the "Summary" heading line — not the
claimed "ML Engineer.". The oracles behave as the real ones do on the
inputs the run feeds them (dateparser resolves "Jan 2021", the NER oracle
contributes no skill entities, similarity exact-matches vocabulary
entries). -/
theorem c2_counterexample :
    (extract_structured_profile dpC2 entsNone simExact c2text).map
      Sections.summary = some (("Summary\nML Engineer.").data) ∧
    (("Summary\nML Engineer.").data : Str) ≠ ("ML Engineer.").data := by decide

set_option maxRecDepth 1000000 in
/-- C2 amended: the end-to-end scenario yields exactly the expected profile
of the spec, except that the summary is "Summary\nML Engineer." (the text
before the first keyword occurrence, stripped) rather than "ML Engineer.":
one experience entry ("Machine Learning Engineer", "OpenAI", "2021-01",
ongoing, description "Working on NLP."), one education entry (MIT, M.Sc.,
CS, 2016, 2018), skills exactly ["Python", "SQL"]. -/
theorem c2_amended :
    extract_structured_profile dpC2 entsNone simExact c2text =
      some c2expected := by decide

/-- C9: NER enrichment is a frame: when title and company are both
non-empty and at least one of the dates is non-empty, the item is returned
with every field unchanged. -/
theorem c9_enrich_frame (ents : EntOracle) (dp : DateOracle)
    (item : ExperienceItem) (ht : item.title ≠ []) (hc : item.company ≠ [])
    (hd : item.start_date ≠ [] ∨ item.end_date ≠ []) :
    enrich_experience_with_ner ents dp item = item := by
  have h1 : ¬(item.title = [] ∨ item.company = []) := by tauto
  have h2 : ¬(item.start_date = [] ∧ item.end_date = []) := by tauto
  simp only [enrich_experience_with_ner]
  rw [if_neg h1, if_neg h2]

/-- C10: section segmentation starts a new section at every occurrence of a
section keyword (case-insensitive) anywhere in the text, mid-word included:
the summary is the stripped text before the leftmost occurrence, and the
text after it is parsed as the corresponding section — concretely,
"I am an experienced engineer\nblah" is truncated to summary "I am an" and
"d engineer\nblah" becomes an experience block parsed by the positional
fallback. -/
theorem c10_keyword_substring (dp : DateOracle) :
    (∀ (text : Str) (i : Nat) (caps : Caps) (rem : Str),
      reSearch sectionRE text = some (i, caps, rem) →
      ∃ out, split_sections dp text = some out ∧
        out.summary = stripStr (text.take i)) ∧
    split_sections dpNone (("I am an experienced engineer\nblah").data) =
      some ⟨("I am an").data,
        [⟨("d engineer").data, ("blah").data, [], [], [], []⟩], [], []⟩ := by
  constructor
  · intro text i caps rem hsearch
    obtain ⟨hi, hmatch⟩ := reSearch_inv hsearch
    have hlt : rem.length < (text.drop i).length := sectionRE_match_lt hmatch
    rw [List.length_drop] at hlt
    have hfst : (splitSectionParts text).1 = text.take i := by
      rw [splitSectionParts, sectionSplit]
      simp only [hsearch]
      rw [if_neg (by omega)]
    obtain ⟨out, hout⟩ := Option.isSome_iff_exists.mp
      (sectionLoop_isSome dp ((splitSectionParts text).2)
        ⟨stripStr (splitSectionParts text).1, [], [], []⟩)
    refine ⟨out, ?_, ?_⟩
    · rw [split_sections]
      exact hout
    · have hsum := sectionLoop_summary dp _ _ out hout
      rw [hfst] at hsum
      exact hsum
  · decide

/-- C10 witness: the general truncation statement at the concrete
'experienced' example. -/
theorem c10_keyword_substring_witness :
    ∃ out, split_sections dpNone (("I am an experienced engineer\nblah").data) =
      some out ∧
      out.summary =
        stripStr ((("I am an experienced engineer\nblah").data).take 8) := by
  refine (c10_keyword_substring dpNone).1
    (("I am an experienced engineer\nblah").data) 8 [] (("d engineer\nblah").data) ?_
  decide

/-- C9 witness: a fully-derived item at concrete oracles. -/
theorem c9_enrich_frame_witness :
    enrich_experience_with_ner entsNone dpNone
      ⟨("Dev").data, ("ACME").data, ("2020-01").data, [], [], []⟩ =
      ⟨("Dev").data, ("ACME").data, ("2020-01").data, [], [], []⟩ :=
  c9_enrich_frame entsNone dpNone _ (by decide) (by decide) (Or.inl (by decide))

end LinkedinExtraction
